import Mathlib

/-!
Shallow embedding of cupdi.c (a command-line UPDI programmer) and proofs
about it.  Machine integers are modelled as `Nat` with explicit reduction
mod 2^32 where the C performs u32 arithmetic.  External collaborators
(the NVM driver, the Intel-HEX parser/encoder, the allocator, libc) are
parameters of the functions that call them; driver interactions are
recorded as traces of `NvmCall` values.
-/

namespace Cupdi

/-- Two to the 32nd: the modulus of u32 arithmetic. -/
def U32 : Nat := 4294967296

/-- Truncation to 32 bits, the implicit wraparound of u32 arithmetic in cupdi.c. -/
def u32 (x : Nat) : Nat := x % U32

/-- u32 subtraction with two's-complement wraparound. -/
def u32sub (x y : Nat) : Nat := (x % U32 + (U32 - y % U32)) % U32

/-- Bitwise complement of a u32 value (the C `~` operator on 32 bits). -/
def u32not (x : Nat) : Nat := U32 - 1 - x % U32

/-- Value of a digit character in the given base (case-insensitive), if valid.
Helper for the model of libc strtol. -/
def digitVal (base : Nat) (c : Char) : Option Nat :=
  let v :=
    if '0' ≤ c ∧ c ≤ '9' then some (c.toNat - '0'.toNat)
    else if 'a' ≤ c ∧ c ≤ 'f' then some (c.toNat - 'a'.toNat + 10)
    else if 'A' ≤ c ∧ c ≤ 'F' then some (c.toNat - 'A'.toNat + 10)
    else none
  match v with
  | some d => if d < base then some d else none
  | none => none

/-- Accumulate the value of leading digits, stopping at the first non-digit. -/
def digitsVal (base : Nat) : List Char → Nat → Nat
  | [], acc => acc
  | c :: cs, acc =>
    match digitVal base c with
    | some d => digitsVal base cs (acc * base + d)
    | none => acc

/-- Modelled from the spec: libc strtol (external to the repository),
restricted to the non-negative numerals cupdi.c passes it.  Parses the
leading digits of the given base (base 16 accepts an optional 0x/0X
prefix and is case-insensitive), stops at the first non-digit, and
yields 0 when no digit is present. -/
def strtol (s : String) (base : Nat) : Nat :=
  let cs := s.data
  let cs :=
    if base = 16 then
      match cs with
      | '0' :: 'x' :: rest => rest
      | '0' :: 'X' :: rest => rest
      | _ => cs
    else cs
  digitsVal base cs 0

/-- Helper for `str_split`: accumulates the current token (reversed). -/
def split_chars (delim : Char) : List Char → List Char → List String
  | [], acc => [String.mk acc.reverse]
  | c :: cs, acc =>
    if c = delim then String.mk acc.reverse :: split_chars delim cs []
    else split_chars delim cs (c :: acc)

/-- Modelled from the spec: str_split of string/split.h (its source is not
under src/): splits a command string into the tokens between occurrences
of the delimiter. -/
def str_split (s : String) (delim : Char) : List String :=
  split_chars delim s.data []

/-- Flash geometry returned by nvm_get_flash_info (device driver). -/
structure flash_info_t where
  flash_start : Nat
  flash_size : Nat
  flash_pagesize : Nat
deriving Repr, DecidableEq

/-- Fields of hex_data_t (ihex/ihex.h) that cupdi.c reads and writes. -/
structure hex_data_t where
  addr_from : Nat
  addr_to : Nat
  offset : Nat
  len : Nat
  data : List Nat
deriving Repr, DecidableEq

/-- One driver (updi/nvm.h) call, as recorded in the traces of the
embedded operations. -/
inductive NvmCall where
  | getDeviceInfo
  | enterProgmode
  | unlockDevice
  | chipErase
  | getFlashInfo
  | readFlash (addr len : Nat)
  | writeFlash (addr : Nat) (data : List Nat) (len : Nat)
  | readMem (addr len : Nat)
  | writeMem (addr : Nat) (data : List Nat)
  | writeFuse (idx value : Nat)
deriving Repr, DecidableEq

/-- Deterministic oracle for the external NVM driver: the result each call
returns (0 = success for the Int-valued calls).  nvm_get_device_info is
called at two program points in main and may answer differently at each,
hence two fields. -/
structure Nvm where
  get_device_info : Int
  get_device_info2 : Int
  enter_progmode : Int
  unlock_device : Int
  chip_erase : Int
  get_flash_info : Except Int flash_info_t
  read_flash : Nat → Nat → Except Int (List Nat)
  write_flash : Nat → List Nat → Nat → Int
  read_mem : Nat → Nat → Except Int (List Nat)
  write_mem : Nat → List Nat → Int
  write_fuse : Nat → Nat → Int

/-- Whether the driver reports failure on the given call under this oracle. -/
def callFails (nvm : Nvm) : NvmCall → Bool
  | .getDeviceInfo => nvm.get_device_info != 0
  | .enterProgmode => nvm.enter_progmode != 0
  | .unlockDevice => nvm.unlock_device != 0
  | .chipErase => nvm.chip_erase != 0
  | .getFlashInfo => match nvm.get_flash_info with | .error _ => true | .ok _ => false
  | .readFlash a l => match nvm.read_flash a l with | .error _ => true | .ok _ => false
  | .writeFlash a d l => nvm.write_flash a d l != 0
  | .readMem a l => match nvm.read_mem a l with | .error _ => true | .ok _ => false
  | .writeMem a d => nvm.write_mem a d != 0
  | .writeFuse i v => nvm.write_fuse i v != 0

/-- Aligned image start, `from = hinfo.addr_from & ~mask` (cupdi.c line 318). -/
def aligned_from (iflash : flash_info_t) (a : Nat) : Nat :=
  Nat.land (u32 a) (u32not (u32sub iflash.flash_pagesize 1))

/-- Aligned image end, `to = ((hinfo.addr_to + mask) & ~mask) - 1` (cupdi.c line 319). -/
def aligned_to (iflash : flash_info_t) (b : Nat) : Nat :=
  u32sub
    (Nat.land (u32 (b + u32sub iflash.flash_pagesize 1))
      (u32not (u32sub iflash.flash_pagesize 1))) 1

/-- Page alignment, zero-based translation and bounds check of load_hex
(cupdi.c lines 317-331); yields `(addr_from, addr_to, size, offset)`, or
none for the address-out-of-range error.  As in the C, `size` and
`offset` are computed from the bounds before translation. -/
def load_align (iflash : flash_info_t) (a b : Nat) : Option (Nat × Nat × Nat × Nat) :=
  let mask := u32sub iflash.flash_pagesize 1
  let from0 := aligned_from iflash a
  let to0 := aligned_to iflash b
  let size := u32 (u32sub to0 from0 + 1)
  let off := Nat.land (u32 a) mask
  let from1 := if from0 < iflash.flash_start then u32 (from0 + iflash.flash_start) else from0
  let to1 := if from0 < iflash.flash_start then u32 (to0 + iflash.flash_start) else to0
  if u32 (iflash.flash_start + iflash.flash_size) ≤ to1 then none
  else some (from1, to1, size, off)

/-- External inputs of load_hex: `hinfo` is the record span from the first
get_hex_info call (none = hex parse failure), `malloc_ok` models the
allocator, and `populated` is the image buffer after the second
get_hex_info call has overlaid the record bytes on the 0xFF fill
(none = failure of that call). -/
structure LoadEnv where
  hinfo : Option (Nat × Nat)
  malloc_ok : Bool
  populated : Option (List Nat)
deriving Repr

/-- load_hex (cupdi.c lines 303-359).  The returned image carries the
translated aligned bounds, the in-page offset, the page-aligned size and
the populated data buffer.  load_hex performs no driver call. -/
def load_hex (env : LoadEnv) (iflash : flash_info_t) : Option hex_data_t :=
  match env.hinfo with
  | none => none
  | some (a, b) =>
    match load_align iflash a b with
    | none => none
    | some (from1, to1, size, off) =>
      if ¬ env.malloc_ok then none
      else
        match env.populated with
        | none => none
        | some d =>
          some { addr_from := from1, addr_to := to1, offset := off, len := size, data := d }

/-- Result of verify_hex: the return code, the logged first mismatch
(offset, expected, actual) if any, the driver calls issued, and whether
the code path executed free(rdata). -/
structure VerifyOut where
  result : Int
  mismatch : Option (Nat × Nat × Nat)
  calls : List NvmCall
  freed : Bool
deriving Repr, DecidableEq

/-- Helper for `verify_scan`: the loop with its iteration count made a
structural argument (`fuel` starts at `len - i` and stays equal to it). -/
def verify_scan_aux (data rdata : List Nat) : Nat → Nat → Nat
  | 0, i => i
  | _fuel + 1, i =>
    if data.getD i 0 != rdata.getD i 0 then i
    else verify_scan_aux data rdata _fuel (i + 1)

/-- The comparison loop of verify_hex (cupdi.c lines 387-392):
`for (i = 0; i < len; i++) if (data[i] != rdata[i]) break;` — returns
the final value of `i`, i.e. the first differing index, or `len` when
the buffers agree on every index below `len`. -/
def verify_scan (data rdata : List Nat) (len i : Nat) : Nat :=
  verify_scan_aux data rdata (len - i) i

/-- verify_hex (cupdi.c lines 368-407): reads `len` bytes at `addr_from`
through the driver and compares them byte-by-byte against the image,
breaking at the first differing index.  `malloc_ok` models the rdata
allocation; the C indexes both buffers only below `len`, which the
HexImage invariant keeps in bounds, so out-of-range reads are modelled
with default 0. -/
def verify_hex (nvm : Nvm) (malloc_ok : Bool) (dhex : hex_data_t) : VerifyOut :=
  if ¬ malloc_ok then ⟨-2, none, [], false⟩
  else
    match nvm.read_flash dhex.addr_from dhex.len with
    | .error _ => ⟨-3, none, [.readFlash dhex.addr_from dhex.len], true⟩
    | .ok rdata =>
      let i := verify_scan dhex.data rdata dhex.len 0
      if i < dhex.len then
        ⟨-4, some (i, dhex.data.getD i 0, rdata.getD i 0),
          [.readFlash dhex.addr_from dhex.len], true⟩
      else ⟨0, none, [.readFlash dhex.addr_from dhex.len], true⟩

/-- updi_flash (cupdi.c lines 409-456): flash-geometry query, image load,
then (when `prog` is set) chip erase and one whole-image write, then
always verify; every driver call is recorded in order. -/
def updi_flash (nvm : Nvm) (env : LoadEnv) (vmalloc : Bool) (prog : Bool) :
    Int × List NvmCall :=
  match nvm.get_flash_info with
  | .error _ => (-4, [.getFlashInfo])
  | .ok flash =>
    match load_hex env flash with
    | none => (-2, [.getFlashInfo])
    | some dhex =>
      let step :=
        if prog then
          if nvm.chip_erase ≠ 0 then (-3, [NvmCall.chipErase])
          else if nvm.write_flash dhex.addr_from dhex.data dhex.len ≠ 0 then
            (-3, [NvmCall.chipErase, .writeFlash dhex.addr_from dhex.data dhex.len])
          else ((0 : Int), [NvmCall.chipErase, .writeFlash dhex.addr_from dhex.data dhex.len])
        else ((0 : Int), ([] : List NvmCall))
      if step.1 ≠ 0 then (step.1, NvmCall.getFlashInfo :: step.2)
      else
        let v := verify_hex nvm vmalloc dhex
        (if v.result ≠ 0 then -3 else 0, NvmCall.getFlashInfo :: (step.2 ++ v.calls))

/-- Result of updi_save: the return code, the driver calls, and the
(path, image) pair handed to the external encoder when it succeeds. -/
structure SaveOut where
  result : Int
  calls : List NvmCall
  saved : Option (String × hex_data_t)

/-- updi_save (cupdi.c lines 458-510): flash-geometry query, whole-flash
read into a buffer of flash_size bytes, then save_hex_info (the external
Intel-HEX encoder, modelled by `save_ok`) on the path `file ++ ".save"`. -/
def updi_save (nvm : Nvm) (malloc_ok save_ok : Bool) (file : String) : SaveOut :=
  match nvm.get_flash_info with
  | .error _ => ⟨-2, [.getFlashInfo], none⟩
  | .ok flash =>
    if ¬ malloc_ok then ⟨-3, [.getFlashInfo], none⟩
    else
      match nvm.read_flash flash.flash_start flash.flash_size with
      | .error _ => ⟨-4, [.getFlashInfo, .readFlash flash.flash_start flash.flash_size], none⟩
      | .ok d =>
        let dhex : hex_data_t :=
          { addr_from := 0, addr_to := flash.flash_size - 1, offset := 0,
            len := flash.flash_size, data := d }
        let new_file := file ++ ".save"
        if ¬ save_ok then
          ⟨-5, [.getFlashInfo, .readFlash flash.flash_start flash.flash_size], none⟩
        else
          ⟨0, [.getFlashInfo, .readFlash flash.flash_start flash.flash_size],
            some (new_file, dhex)⟩

/-- updi_erase (cupdi.c lines 248-259). -/
def updi_erase (nvm : Nvm) : Int × List NvmCall :=
  if nvm.chip_erase ≠ 0 then (-2, [.chipErase]) else (0, [.chipErase])

/-- updi_fuse (cupdi.c lines 261-300) after str_split: token 0 is parsed
in base 10 as the fuse index, token 1 in base 16 as the value (truncated
to a byte by the `(u8)` cast); exactly two tokens are required before any
device I/O happens. -/
def updi_fuse_tokens (nvm : Nvm) (tokens : List String) : Int × List NvmCall :=
  let idx := match tokens.get? 0 with | some t => strtol t 10 | none => 0
  let value := match tokens.get? 1 with | some t => strtol t 16 | none => 0
  if tokens.length = 2 then
    if nvm.write_fuse idx (value % 256) ≠ 0 then (-3, [.writeFuse idx (value % 256)])
    else (0, [.writeFuse idx (value % 256)])
  else (-4, [])

/-- updi_fuse on the raw `"index:value"` spec string. -/
def updi_fuse (nvm : Nvm) (fuses : String) : Int × List NvmCall :=
  updi_fuse_tokens nvm (str_split fuses ':')

/-- updi_read (cupdi.c lines 512-565) after str_split: token 0 is the
address in base 16, token 1 the length in base 10 clamped to 255
(UPDI_READ_STROKEN_LEN); exactly two tokens are required, and one driver
read is issued.  `malloc_ok` models the transient buffer allocation. -/
def updi_read_tokens (nvm : Nvm) (malloc_ok : Bool) (tokens : List String) :
    Int × List NvmCall :=
  let address : Nat := match tokens.get? 0 with | some t => strtol t 16 | none => 0
  let len0 : Nat := match tokens.get? 1 with | some t => strtol t 10 | none => 0
  let len := if len0 > 255 then 255 else len0
  if tokens.length = 2 then
    if ¬ malloc_ok then (-3, [])
    else
      match nvm.read_mem address len with
      | .error _ => (-4, [.readMem address len])
      | .ok _ => (0, [.readMem address len])
  else (-4, [])

/-- updi_read on the raw `"address;length"` command string. -/
def updi_read (nvm : Nvm) (malloc_ok : Bool) (cmd : String) : Int × List NvmCall :=
  updi_read_tokens nvm malloc_ok (str_split cmd ';')

/-- The byte-token loop of updi_write (cupdi.c lines 582-605): `i` is the
token index (the address token was index 0), `buf` the 16-slot window,
`j` the last window slot written while no error had occurred, `dirty`
whether the window holds unflushed bytes.  A full window is flushed as
one write at `address + i - j - 1`; after a failed write the remaining
tokens are consumed without buffering or flushing.  Returns the final
`(i, buf, dirty, j, result, calls)`. -/
def write_loop (nvm : Nvm) (address : Nat) :
    List String → Nat → List Nat → Bool → Nat → Int → List NvmCall →
    Nat × List Nat × Bool × Nat × Int × List NvmCall
  | [], i, buf, dirty, j, result, calls => (i, buf, dirty, j, result, calls)
  | tok :: rest, i, buf, dirty, j, result, calls =>
    if result = 0 then
      let jn := (i - 1) % 16
      let bufn := buf.set jn (strtol tok 16 % 256)
      if jn + 1 = 16 then
        let r := nvm.write_mem (address + i - jn - 1) bufn
        write_loop nvm address rest (i + 1) bufn false jn (if r ≠ 0 then -3 else 0)
          (calls ++ [.writeMem (address + i - jn - 1) bufn])
      else
        write_loop nvm address rest (i + 1) bufn true jn result calls
    else write_loop nvm address rest (i + 1) buf dirty j result calls

/-- Helper for `readback_loop`: the loop with a structural fuel argument
bounding the remaining iterations (`n - j` suffices, since `j` grows by
16 each step and the `j < n` guard decides termination). -/
def readback_aux (nvm : Nvm) (address n : Nat) : Nat → Nat → Int × List NvmCall
  | 0, _ => (0, [])
  | _fuel + 1, j =>
    if j < n then
      let len := min (n - j) 16
      match nvm.read_mem (address + j) len with
      | .error _ => (-5, [.readMem (address + j) len])
      | .ok _ =>
        let r := readback_aux nvm address n _fuel (j + 16)
        (r.1, .readMem (address + j) len :: r.2)
    else (0, [])

/-- The readback loop of updi_write (cupdi.c lines 621-633): reads the
written range back in 16-byte groups, the last group sized to the
remainder, stopping at the first failed read.  `n` is the byte-token
count, `j` the current offset. -/
def readback_loop (nvm : Nvm) (address n j : Nat) : Int × List NvmCall :=
  readback_aux nvm address n (n - j) j

/-- The final partial-window flush of updi_write (cupdi.c lines 608-615):
given the loop's final state `(i, buf, dirty, j, result, calls)`, when the
window is dirty and no write failed, one more write of `buf[0..j]` is
issued at `address + i - j - 2`. -/
def write_flush (nvm : Nvm) (address : Nat)
    (st : Nat × List Nat × Bool × Nat × Int × List NvmCall) : Int × List NvmCall :=
  if st.2.2.1 ∧ st.2.2.2.2.1 = 0 then
    ((if nvm.write_mem (address + st.1 - st.2.2.2.1 - 2) (st.2.1.take (st.2.2.2.1 + 1)) ≠ 0
        then (-4 : Int) else 0),
      st.2.2.2.2.2 ++
        [NvmCall.writeMem (address + st.1 - st.2.2.2.1 - 2) (st.2.1.take (st.2.2.2.1 + 1))])
  else (st.2.2.2.2.1, st.2.2.2.2.2)

/-- updi_write (cupdi.c lines 567-637) after str_split: parses the
address from token 0 in base 16, runs the byte loop, flushes the final
partial window, and on full success reads the written range back. -/
def updi_write_tokens (nvm : Nvm) : List String → Int × List NvmCall
  | [] => (0, [])
  | t0 :: rest =>
    let address := strtol t0 16
    let st := write_loop nvm address rest 1 (List.replicate 16 0) false 0 0 []
    let st2 := write_flush nvm address st
    if st2.1 = 0 then
      let rb := readback_loop nvm address (st.1 - 1) 0
      (rb.1, st2.2 ++ rb.2)
    else st2

/-- updi_write on the raw `"address;byte0;...;byteN"` command string. -/
def updi_write (nvm : Nvm) (cmd : String) : Int × List NvmCall :=
  updi_write_tokens nvm (str_split cmd ';')

/-- Helper for `full_chunks` with a structural fuel argument bounding
the number of windows (the stream length suffices). -/
def full_chunks_aux (addr : Nat) : Nat → List Nat → List NvmCall
  | 0, _ => []
  | _fuel + 1, vals =>
    if 16 ≤ vals.length then
      .writeMem addr (vals.take 16) :: full_chunks_aux (addr + 16) _fuel (vals.drop 16)
    else []

/-- The full 16-byte windows of a byte stream, as write transactions at
their window start addresses. -/
def full_chunks (addr : Nat) (vals : List Nat) : List NvmCall :=
  full_chunks_aux addr vals.length vals

/-- The trailing short window of a byte stream (empty when the byte count
is a multiple of 16). -/
def leftover_chunk (addr : Nat) (vals : List Nat) : List NvmCall :=
  let r := vals.length % 16
  if r = 0 then []
  else [.writeMem (addr + (vals.length - r)) (vals.drop (vals.length - r))]

/-- Helper for `read_chunks` with a structural fuel argument bounding
the number of groups (`n` suffices). -/
def read_chunks_aux : Nat → Nat → Nat → List NvmCall
  | 0, _, _ => []
  | _fuel + 1, addr, n =>
    if n = 0 then []
    else .readMem addr (min n 16) :: read_chunks_aux _fuel (addr + 16) (n - 16)

/-- The readback transactions for `n` written bytes starting at `addr`:
16-byte groups with the last group sized to the remainder. -/
def read_chunks (addr n : Nat) : List NvmCall :=
  read_chunks_aux n addr n

/-- Flag bit positions (cupdi.c line 65). -/
def FLAG_UNLOCK : Nat := 0

/-- Flag bit position of the erase request. -/
def FLAG_ERASE : Nat := 1

/-- Flag bit position of the program request. -/
def FLAG_PROG : Nat := 2

/-- Flag bit position of the check request. -/
def FLAG_CHECK : Nat := 3

/-- Flag bit position of the save request. -/
def FLAG_SAVE : Nat := 4

/-- The command-line inputs of main that drive the orchestration
(cupdi.c lines 68-104), after argument parsing. -/
structure MainArgs where
  file : Option String
  fuses : Option String
  read : Option String
  write : Option String
  flag : Nat
deriving Repr

/-- External non-driver outcomes main's run depends on: device-database
lookup, driver-session initialization, the load inputs, and the
allocator/encoder outcomes of the verify, save and read steps. -/
structure MainEnv where
  chip_ok : Bool
  init_ok : Bool
  load : LoadEnv
  vmalloc : Bool
  smalloc : Bool
  save_ok : Bool
  rmalloc : Bool

/-- Effective flag after main's implicit-program adjustment (cupdi.c
lines 136-139): a supplied file with no flag bits set turns on FLAG_PROG
(SET_BIT of os/platform.h, modelled as setting that bit). -/
def main_flag (args : MainArgs) : Nat :=
  if args.file.isSome ∧ args.flag = 0 then args.flag ||| (1 <<< FLAG_PROG) else args.flag

/-- Whether program-mode entry will be attempted (cupdi.c lines 141-142). -/
def main_unlock (args : MainArgs) : Bool :=
  (main_flag args).testBit FLAG_UNLOCK || (main_flag args).testBit FLAG_ERASE ||
    (main_flag args).testBit FLAG_PROG

/-- The erase / fuse / program-or-check / save / read / write chain of
main (cupdi.c lines 185-239), given the effective flag: each step runs
only if requested, and the first failing step aborts the remainder with
its distinct code.  Returns the result and the driver calls issued by
the chain (the separately traced prefix is main's device-info and
program-mode-entry part). -/
def main_steps (args : MainArgs) (env : MainEnv) (nvm : Nvm) (flag : Nat) :
    Int × List NvmCall :=
  let estep := if flag.testBit FLAG_ERASE then updi_erase nvm else (0, [])
  if estep.1 ≠ 0 then (-7, estep.2)
  else
    let fstep := match args.fuses with
      | some fs => updi_fuse nvm fs
      | none => (0, [])
    if fstep.1 ≠ 0 then (-8, estep.2 ++ fstep.2)
    else
      let pstep :=
        match args.file with
        | some _ =>
          if flag.testBit FLAG_PROG ∨ flag.testBit FLAG_CHECK then
            updi_flash nvm env.load env.vmalloc (flag.testBit FLAG_PROG)
          else (0, [])
        | none => (0, [])
      if pstep.1 ≠ 0 then (-9, estep.2 ++ fstep.2 ++ pstep.2)
      else
        let sstep :=
          match args.file with
          | some f =>
            if flag.testBit FLAG_SAVE then
              let so := updi_save nvm env.smalloc env.save_ok f
              (so.result, so.calls)
            else (0, [])
          | none => (0, [])
        if sstep.1 ≠ 0 then (-10, estep.2 ++ fstep.2 ++ pstep.2 ++ sstep.2)
        else
          let rstep := match args.read with
            | some rc => updi_read nvm env.rmalloc rc
            | none => (0, [])
          if rstep.1 ≠ 0 then
            (-11, estep.2 ++ fstep.2 ++ pstep.2 ++ sstep.2 ++ rstep.2)
          else
            let wstep := match args.write with
              | some wc => updi_write nvm wc
              | none => (0, [])
            if wstep.1 ≠ 0 then
              (-12, estep.2 ++ fstep.2 ++ pstep.2 ++ sstep.2 ++ rstep.2 ++ wstep.2)
            else (0, estep.2 ++ fstep.2 ++ pstep.2 ++ sstep.2 ++ rstep.2 ++ wstep.2)

/-- main (cupdi.c lines 68-246) from the point where the device name and
com port are validated.  Returns the process result and the driver-call
trace; the unconditional cleanup calls (nvm_leave_progmode,
updi_nvm_deinit, cupdi.c lines 241-243) are not traced, and the `-t`
test path is omitted as it does not exist in this source. -/
def main_run (args : MainArgs) (env : MainEnv) (nvm : Nvm) : Int × List NvmCall :=
  let flag := main_flag args
  let unlock := main_unlock args
  if ¬ env.chip_ok then (-2, [])
  else if ¬ env.init_ok then (-3, [])
  else if nvm.get_device_info ≠ 0 then (-4, [.getDeviceInfo])
  else
    let ustep :=
      if unlock then
        if nvm.enter_progmode ≠ 0 then
          if nvm.unlock_device ≠ 0 then ((-5 : Int), [NvmCall.enterProgmode, .unlockDevice])
          else if nvm.get_device_info2 ≠ 0 then
            ((-6 : Int), [NvmCall.enterProgmode, .unlockDevice, .getDeviceInfo])
          else ((0 : Int), [NvmCall.enterProgmode, .unlockDevice, .getDeviceInfo])
        else if nvm.get_device_info2 ≠ 0 then
          ((-6 : Int), [NvmCall.enterProgmode, .getDeviceInfo])
        else ((0 : Int), [NvmCall.enterProgmode, .getDeviceInfo])
      else ((0 : Int), ([] : List NvmCall))
    let t0 := NvmCall.getDeviceInfo :: ustep.2
    if ustep.1 ≠ 0 then (ustep.1, t0)
    else
      let ms := main_steps args env nvm flag
      (ms.1, t0 ++ ms.2)

/-- Driver oracle that succeeds on every call, with the tiny817-like
geometry flash_start = 0x8000, flash_size = 0x8000, pagesize = 64, and
reads that return 0xFF bytes. -/
def nvmOk : Nvm :=
  { get_device_info := 0, get_device_info2 := 0, enter_progmode := 0, unlock_device := 0,
    chip_erase := 0, get_flash_info := .ok ⟨32768, 32768, 64⟩,
    read_flash := fun _ l => .ok (List.replicate l 255),
    write_flash := fun _ _ _ => 0,
    read_mem := fun _ l => .ok (List.replicate l 255),
    write_mem := fun _ _ => 0,
    write_fuse := fun _ _ => 0 }

/-- Concrete oracle for the save counterexample: geometry with
flash_start = 0x8000 and flash_size = 8192. -/
def nvmSave : Nvm :=
  { nvmOk with get_flash_info := .ok ⟨32768, 8192, 128⟩ }

/-- Calls that the steps after the unlock block can issue: anything
except device-info queries, program-mode entry and device unlock. -/
def tail_shape (c : NvmCall) : Prop :=
  c = .chipErase ∨ c = .getFlashInfo ∨ (∃ a l, c = .readFlash a l) ∨
  (∃ a d l, c = .writeFlash a d l) ∨ (∃ a l, c = .readMem a l) ∨
  (∃ a d, c = .writeMem a d) ∨ (∃ i v, c = .writeFuse i v)

/-! ## Arithmetic bridge lemmas -/

/-- Reduction is the identity below the modulus. -/
theorem u32_eq {x : Nat} (h : x < U32) : u32 x = x := Nat.mod_eq_of_lt h

/-- u32 subtraction agrees with Nat subtraction when no borrow occurs. -/
theorem u32sub_le {x y : Nat} (hx : x < U32) (hy : y ≤ x) : u32sub x y = x - y := by
  unfold u32sub
  rw [Nat.mod_eq_of_lt hx, Nat.mod_eq_of_lt (lt_of_le_of_lt hy hx)]
  have h1 : x + (U32 - y) = U32 + (x - y) := by
    have : y ≤ U32 := le_of_lt (lt_of_le_of_lt hy hx)
    omega
  rw [h1, Nat.add_mod_left, Nat.mod_eq_of_lt (by omega)]

/-- Masking with a low-bit mask is reduction mod the power of two. -/
theorem land_low (x k : Nat) : Nat.land x (2 ^ k - 1) = x % 2 ^ k :=
  Nat.and_pow_two_sub_one_eq_mod x k

/-- testBit after division by a power of two shifts the index. -/
theorem testBit_div_pow (x k j : Nat) :
    Nat.testBit (x / 2 ^ k) j = Nat.testBit x (k + j) := by
  rw [Nat.testBit_to_div_mod, Nat.testBit_to_div_mod, Nat.div_div_eq_div_mul, ← pow_add]

/-- Masking a u32 value with the complement of a low-bit mask clears the
low `k` bits, leaving the value rounded down to a multiple of `2^k`. -/
theorem land_himask {x k : Nat} (hx : x < 2 ^ 32) (hk : k ≤ 32) :
    Nat.land x (2 ^ 32 - 2 ^ k) = 2 ^ k * (x / 2 ^ k) := by
  have hsplit : (2 : Nat) ^ 32 - 2 ^ k = 2 ^ k * (2 ^ (32 - k) - 1) := by
    have hpow : (2 : Nat) ^ k * 2 ^ (32 - k) = 2 ^ 32 := by
      rw [← pow_add]
      congr 1
      omega
    rw [Nat.mul_sub, Nat.mul_one, hpow]
  have hland : Nat.land x (2 ^ 32 - 2 ^ k) = x &&& (2 ^ 32 - 2 ^ k) := rfl
  rw [hland, hsplit]
  apply Nat.eq_of_testBit_eq
  intro i
  rw [Nat.testBit_and, Nat.testBit_mul_pow_two]
  have hmul : 2 ^ k * (x / 2 ^ k) = 2 ^ k * (x / 2 ^ k) := rfl
  rw [show (2 : Nat) ^ k * (x / 2 ^ k) = 2 ^ k * (x / 2 ^ k) from rfl]
  rw [Nat.testBit_mul_pow_two]
  rcases Nat.lt_or_ge i k with hik | hik
  · simp [Nat.not_le_of_lt hik, Nat.lt_of_lt_of_le hik hk]
  · rcases Nat.lt_or_ge i 32 with hi32 | hi32
    · have hdiv : Nat.testBit (x / 2 ^ k) (i - k) = Nat.testBit x i := by
        rw [testBit_div_pow]
        congr 1
        omega
      have hlt : i - k < 32 - k := by omega
      simp [hik, hdiv, Nat.testBit_two_pow_sub_one, hlt]
    · have h0 : Nat.testBit x i = false :=
        Nat.testBit_lt_two_pow (lt_of_lt_of_le hx (Nat.pow_le_pow_right (by norm_num) hi32))
      have h0' : Nat.testBit (x / 2 ^ k) (i - k) = false := by
        rw [testBit_div_pow]
        exact Nat.testBit_lt_two_pow
          (lt_of_lt_of_le hx (Nat.pow_le_pow_right (by norm_num) (by omega)))
      simp [h0, h0']

/-- The 32-bit complement of the low-bit mask `2^k - 1` is the high mask. -/
theorem u32not_low_mask {k : Nat} (hk : k ≤ 32) : u32not (2 ^ k - 1) = 2 ^ 32 - 2 ^ k := by
  have hle : (2 : Nat) ^ k ≤ 2 ^ 32 := Nat.pow_le_pow_right (by norm_num) hk
  have hpos : 0 < (2 : Nat) ^ k := Nat.two_pow_pos k
  have h32 : (2 : Nat) ^ 32 = 4294967296 := by norm_num
  rw [h32] at hle ⊢
  unfold u32not U32
  rw [Nat.mod_eq_of_lt (by omega)]
  omega

/-- Characterization of load_align for a power-of-two page size and a
page-aligned geometry, on a span inside the flash: the computed bounds
are `a` rounded down and `b` rounded up (from `b + pagesize - 1`) to
page multiples. -/
theorem load_align_aligned (iflash : flash_info_t) (a b k : Nat)
    (hp : iflash.flash_pagesize = 2 ^ k)
    (hds : iflash.flash_pagesize ∣ iflash.flash_start)
    (hdz : iflash.flash_pagesize ∣ iflash.flash_size)
    (ha : iflash.flash_start ≤ a) (hab : a ≤ b) (hbpos : 0 < b)
    (hbs : b < iflash.flash_start + iflash.flash_size)
    (hfit : iflash.flash_start + iflash.flash_size + iflash.flash_pagesize < U32) :
    load_align iflash a b =
      some (2 ^ k * (a / 2 ^ k), 2 ^ k * ((b + 2 ^ k - 1) / 2 ^ k) - 1,
        2 ^ k * ((b + 2 ^ k - 1) / 2 ^ k) - 2 ^ k * (a / 2 ^ k), a % 2 ^ k) ∧
    iflash.flash_start ≤ 2 ^ k * (a / 2 ^ k) ∧
    2 ^ k * ((b + 2 ^ k - 1) / 2 ^ k) ≤ iflash.flash_start + iflash.flash_size := by
  have hU : U32 = 2 ^ 32 := by norm_num [U32]
  have hpos : 0 < (2 : Nat) ^ k := Nat.two_pow_pos k
  rw [hp] at hds hdz hfit
  have hk32 : k < 32 := by
    by_contra hcon
    have : (2 : Nat) ^ 32 ≤ 2 ^ k := Nat.pow_le_pow_right (by norm_num) (by omega)
    omega
  have hpU : (2 : Nat) ^ k < U32 := by
    rw [hU]
    exact Nat.pow_lt_pow_right (by norm_num) hk32
  have haU : a < U32 := by omega
  have hbmU : b + (2 ^ k - 1) < U32 := by omega
  have hmask : u32sub iflash.flash_pagesize 1 = 2 ^ k - 1 := by
    rw [hp]
    exact u32sub_le hpU hpos
  have hAdm := Nat.div_add_mod a (2 ^ k)
  have hAm : a % 2 ^ k < 2 ^ k := Nat.mod_lt a hpos
  have hBdm := Nat.div_add_mod (b + 2 ^ k - 1) (2 ^ k)
  have hBm : (b + 2 ^ k - 1) % 2 ^ k < 2 ^ k := Nat.mod_lt _ hpos
  have haU2 : a < 2 ^ 32 := lt_of_lt_of_eq haU hU
  have hfrom : aligned_from iflash a = 2 ^ k * (a / 2 ^ k) := by
    unfold aligned_from
    rw [hmask, u32_eq haU, u32not_low_mask (le_of_lt hk32)]
    exact land_himask haU2 (le_of_lt hk32)
  have hbeq : b + (2 ^ k - 1) = b + 2 ^ k - 1 := by omega
  have hbmU2 : b + 2 ^ k - 1 < 2 ^ 32 := by
    rw [← hbeq, ← hU]
    exact hbmU
  have hBdm2 := Nat.div_add_mod (b + 2 ^ k - 1) (2 ^ k)
  have hto : aligned_to iflash b = 2 ^ k * ((b + 2 ^ k - 1) / 2 ^ k) - 1 := by
    unfold aligned_to
    rw [hmask, hbeq, u32_eq (lt_of_lt_of_eq hbmU2 hU.symm), u32not_low_mask (le_of_lt hk32)]
    rw [land_himask hbmU2 (le_of_lt hk32)]
    refine u32sub_le ?hx ?hy
    · rw [hU]
      omega
    · omega
  obtain ⟨m, hm⟩ := hds
  obtain ⟨z, hz⟩ := hdz
  have hFa : 2 ^ k * (a / 2 ^ k) ≤ a := by omega
  have hbR : b ≤ 2 ^ k * ((b + 2 ^ k - 1) / 2 ^ k) := by omega
  have hstartF : iflash.flash_start ≤ 2 ^ k * (a / 2 ^ k) := by
    have hma : m * 2 ^ k ≤ a := by
      have : m * 2 ^ k = 2 ^ k * m := Nat.mul_comm m (2 ^ k)
      omega
    have hmd : m ≤ a / 2 ^ k := (Nat.le_div_iff_mul_le hpos).mpr hma
    calc iflash.flash_start = 2 ^ k * m := hm
      _ ≤ 2 ^ k * (a / 2 ^ k) := Nat.mul_le_mul_left _ hmd
  have hRle : 2 ^ k * ((b + 2 ^ k - 1) / 2 ^ k) ≤
      iflash.flash_start + iflash.flash_size := by
    have hq : (b + 2 ^ k - 1) / 2 ^ k < m + z + 1 := by
      rw [Nat.div_lt_iff_lt_mul hpos]
      have hbsz : b < 2 ^ k * m + 2 ^ k * z := by rw [← hm, ← hz]; exact hbs
      have hexp : (m + z + 1) * 2 ^ k = 2 ^ k * m + 2 ^ k * z + 2 ^ k := by ring
      omega
    have hqle : (b + 2 ^ k - 1) / 2 ^ k ≤ m + z := by omega
    calc 2 ^ k * ((b + 2 ^ k - 1) / 2 ^ k) ≤ 2 ^ k * (m + z) := Nat.mul_le_mul_left _ hqle
      _ = iflash.flash_start + iflash.flash_size := by rw [hm, hz]; ring
  have hbR1 : 1 ≤ 2 ^ k * ((b + 2 ^ k - 1) / 2 ^ k) := le_trans hbpos hbR
  have hRU : 2 ^ k * ((b + 2 ^ k - 1) / 2 ^ k) < U32 := by omega
  have hoff : Nat.land (u32 a) (2 ^ k - 1) = a % 2 ^ k := by
    rw [u32_eq haU]
    exact land_low a k
  refine ⟨?_, hstartF, hRle⟩
  simp only [load_align, hmask, hfrom, hto, hoff]
  have hnotlt : ¬ (2 ^ k * (a / 2 ^ k) < iflash.flash_start) := by omega
  simp only [hnotlt, if_false]
  have hcheck : ¬ (u32 (iflash.flash_start + iflash.flash_size) ≤
      2 ^ k * ((b + 2 ^ k - 1) / 2 ^ k) - 1) := by
    rw [u32_eq (by omega)]
    omega
  simp only [hcheck, if_false]
  have hsize : u32 (u32sub (2 ^ k * ((b + 2 ^ k - 1) / 2 ^ k) - 1) (2 ^ k * (a / 2 ^ k)) + 1) =
      2 ^ k * ((b + 2 ^ k - 1) / 2 ^ k) - 2 ^ k * (a / 2 ^ k) := by
    have hFR : 2 ^ k * (a / 2 ^ k) ≤ 2 ^ k * ((b + 2 ^ k - 1) / 2 ^ k) := le_trans hFa (le_trans hab hbR)
    rcases Nat.eq_or_lt_of_le hFR with heq | hlt
    · rw [← heq]
      unfold u32sub u32
      have e1 : (2 ^ k * (a / 2 ^ k) - 1) % U32 = 2 ^ k * (a / 2 ^ k) - 1 :=
        Nat.mod_eq_of_lt (by omega)
      have e2 : 2 ^ k * (a / 2 ^ k) % U32 = 2 ^ k * (a / 2 ^ k) :=
        Nat.mod_eq_of_lt (by omega)
      rw [e1, e2]
      have h1 : 2 ^ k * (a / 2 ^ k) - 1 + (U32 - 2 ^ k * (a / 2 ^ k)) = U32 - 1 := by omega
      rw [h1, Nat.mod_eq_of_lt (show U32 - 1 < U32 by omega)]
      have h2 : U32 - 1 + 1 = U32 := by omega
      rw [h2, Nat.mod_self]
      omega
    · rw [u32sub_le (by omega) (by omega)]
      rw [u32_eq (by omega)]
      omega
  rw [hsize]

/-- C1: counterexample.  At flash_start = 0x8000, flash_size = 0x8000,
pagesize = 64 and record span a = 0x8000, b = 0x8040 (b on a page
boundary), load_hex computes addr_to = 0x803F, while the claimed formula
`((b + pagesize) & ~(pagesize-1)) - 1` gives 0x807F, and the claimed
`addr_to + 1 ≥ b + 1` fails: the code rounds up from `b + pagesize - 1`,
not from `b + pagesize`. -/
theorem C1_counterexample :
    load_align ⟨32768, 32768, 64⟩ 32768 32832 = some (32768, 32831, 64, 0) ∧
    Nat.land (32832 + 64) (u32not (64 - 1)) - 1 = 32895 ∧
    ¬ (32832 + 1 ≤ 32831 + 1) := by decide

/-- C1 (amended): for every geometry with power-of-two pagesize and
page-aligned flash_start and flash_size, and every record span [a, b]
within flash bounds (0 < b), load computes `addr_from = a & ~(pagesize-1)`
(that is, `a - a % pagesize`), `addr_to = ((b + pagesize - 1) &
~(pagesize-1)) - 1` (one less than b rounded up to a page multiple), and
`offset = a % pagesize = a & (pagesize-1)`, so that addr_from ≤ a,
addr_to + 1 ≥ b, both addr_from and addr_to + 1 are multiples of
pagesize, and [addr_from, addr_to] lies inside
[flash_start, flash_start + flash_size). -/
theorem C1_load_alignment (iflash : flash_info_t) (a b k : Nat)
    (hp : iflash.flash_pagesize = 2 ^ k)
    (hds : iflash.flash_pagesize ∣ iflash.flash_start)
    (hdz : iflash.flash_pagesize ∣ iflash.flash_size)
    (ha : iflash.flash_start ≤ a) (hab : a ≤ b) (hbpos : 0 < b)
    (hbs : b < iflash.flash_start + iflash.flash_size)
    (hfit : iflash.flash_start + iflash.flash_size + iflash.flash_pagesize < U32) :
    load_align iflash a b =
      some (a - a % 2 ^ k, (b + 2 ^ k - 1) - (b + 2 ^ k - 1) % 2 ^ k - 1,
        ((b + 2 ^ k - 1) - (b + 2 ^ k - 1) % 2 ^ k) - (a - a % 2 ^ k), a % 2 ^ k) ∧
    a - a % 2 ^ k ≤ a ∧
    b ≤ (b + 2 ^ k - 1) - (b + 2 ^ k - 1) % 2 ^ k ∧
    2 ^ k ∣ a - a % 2 ^ k ∧
    2 ^ k ∣ (b + 2 ^ k - 1) - (b + 2 ^ k - 1) % 2 ^ k ∧
    iflash.flash_start ≤ a - a % 2 ^ k ∧
    (b + 2 ^ k - 1) - (b + 2 ^ k - 1) % 2 ^ k - 1 <
      iflash.flash_start + iflash.flash_size := by
  have hpos : 0 < (2 : Nat) ^ k := Nat.two_pow_pos k
  have hAdm := Nat.div_add_mod a (2 ^ k)
  have hBdm := Nat.div_add_mod (b + 2 ^ k - 1) (2 ^ k)
  have hBm : (b + 2 ^ k - 1) % 2 ^ k < 2 ^ k := Nat.mod_lt _ hpos
  have hF : 2 ^ k * (a / 2 ^ k) = a - a % 2 ^ k := by omega
  have hR : 2 ^ k * ((b + 2 ^ k - 1) / 2 ^ k) =
      (b + 2 ^ k - 1) - (b + 2 ^ k - 1) % 2 ^ k := by omega
  obtain ⟨hmain, hstartF, hRle⟩ := load_align_aligned iflash a b k hp hds hdz ha hab hbpos hbs hfit
  rw [hF, hR] at hmain
  rw [hF] at hstartF
  rw [hR] at hRle
  refine ⟨hmain, by omega, by omega, ⟨a / 2 ^ k, hF.symm⟩,
    ⟨(b + 2 ^ k - 1) / 2 ^ k, hR.symm⟩, hstartF, by omega⟩

/-- C1 witness: the amended theorem applied at the concrete geometry
flash_start = 0x8000, flash_size = 0x8000, pagesize = 64 = 2^6 and the
span a = 0x8002, b = 0x8084. -/
theorem C1_load_alignment_witness :
    load_align ⟨32768, 32768, 64⟩ 32770 32900 =
      some (32770 - 32770 % 2 ^ 6, (32900 + 2 ^ 6 - 1) - (32900 + 2 ^ 6 - 1) % 2 ^ 6 - 1,
        ((32900 + 2 ^ 6 - 1) - (32900 + 2 ^ 6 - 1) % 2 ^ 6) - (32770 - 32770 % 2 ^ 6),
        32770 % 2 ^ 6) ∧
    32770 - 32770 % 2 ^ 6 ≤ 32770 ∧
    32900 ≤ (32900 + 2 ^ 6 - 1) - (32900 + 2 ^ 6 - 1) % 2 ^ 6 ∧
    2 ^ 6 ∣ 32770 - 32770 % 2 ^ 6 ∧
    2 ^ 6 ∣ (32900 + 2 ^ 6 - 1) - (32900 + 2 ^ 6 - 1) % 2 ^ 6 ∧
    32768 ≤ 32770 - 32770 % 2 ^ 6 ∧
    (32900 + 2 ^ 6 - 1) - (32900 + 2 ^ 6 - 1) % 2 ^ 6 - 1 < 32768 + 32768 :=
  C1_load_alignment ⟨32768, 32768, 64⟩ 32770 32900 6 (by decide) (by decide) (by decide)
    (by decide) (by decide) (by decide) (by decide) (by decide)

/-- C5: for a power-of-two pagesize (within u32 range), load first
translates both aligned bounds by adding flash_start exactly when the
aligned addr_from is below flash_start, and then fails with the
address-out-of-range error — returning none for every allocator state
and every hex-record buffer, hence before the image buffer is allocated,
and without any driver interaction (load_hex takes no driver argument) —
exactly when the translated addr_to reaches flash_start + flash_size;
otherwise load_align yields the (possibly translated) aligned bounds. -/
theorem C5_load_translate_reject (iflash : flash_info_t) (a b k : Nat)
    (mok : Bool) (popd : Option (List Nat))
    (hp : iflash.flash_pagesize = 2 ^ k) (hk : k < 32)
    (ha32 : a < U32) (hab : a ≤ b) (hb32 : b + 2 ^ k < U32) (hbpos : 0 < b)
    (hS : iflash.flash_start + iflash.flash_size < U32)
    (hT : (b + 2 ^ k - 1) - (b + 2 ^ k - 1) % 2 ^ k + iflash.flash_start < U32) :
    (a - a % 2 ^ k < iflash.flash_start →
      (iflash.flash_start + iflash.flash_size ≤
          (b + 2 ^ k - 1) - (b + 2 ^ k - 1) % 2 ^ k - 1 + iflash.flash_start →
        load_hex ⟨some (a, b), mok, popd⟩ iflash = none) ∧
      ((b + 2 ^ k - 1) - (b + 2 ^ k - 1) % 2 ^ k - 1 + iflash.flash_start <
          iflash.flash_start + iflash.flash_size →
        ∃ sz, load_align iflash a b =
          some (a - a % 2 ^ k + iflash.flash_start,
            (b + 2 ^ k - 1) - (b + 2 ^ k - 1) % 2 ^ k - 1 + iflash.flash_start,
            sz, a % 2 ^ k))) ∧
    (iflash.flash_start ≤ a - a % 2 ^ k →
      (iflash.flash_start + iflash.flash_size ≤
          (b + 2 ^ k - 1) - (b + 2 ^ k - 1) % 2 ^ k - 1 →
        load_hex ⟨some (a, b), mok, popd⟩ iflash = none) ∧
      ((b + 2 ^ k - 1) - (b + 2 ^ k - 1) % 2 ^ k - 1 <
          iflash.flash_start + iflash.flash_size →
        ∃ sz, load_align iflash a b =
          some (a - a % 2 ^ k,
            (b + 2 ^ k - 1) - (b + 2 ^ k - 1) % 2 ^ k - 1, sz, a % 2 ^ k))) := by
  have hU : U32 = 2 ^ 32 := by norm_num [U32]
  have hpos : 0 < (2 : Nat) ^ k := Nat.two_pow_pos k
  have hpU : (2 : Nat) ^ k < U32 := by
    rw [hU]
    exact Nat.pow_lt_pow_right (by norm_num) hk
  have hmask : u32sub iflash.flash_pagesize 1 = 2 ^ k - 1 := by
    rw [hp]
    exact u32sub_le hpU hpos
  have hAdm := Nat.div_add_mod a (2 ^ k)
  have hBdm := Nat.div_add_mod (b + 2 ^ k - 1) (2 ^ k)
  have hAm : a % 2 ^ k < 2 ^ k := Nat.mod_lt a hpos
  have hBm : (b + 2 ^ k - 1) % 2 ^ k < 2 ^ k := Nat.mod_lt _ hpos
  have haU2 : a < 2 ^ 32 := by rw [← hU]; exact ha32
  have hfrom : aligned_from iflash a = a - a % 2 ^ k := by
    unfold aligned_from
    rw [hmask, u32_eq ha32, u32not_low_mask (le_of_lt hk), land_himask haU2 (le_of_lt hk)]
    omega
  have hbeq : b + (2 ^ k - 1) = b + 2 ^ k - 1 := by omega
  have hbmU2 : b + 2 ^ k - 1 < 2 ^ 32 := by rw [← hU]; omega
  have hRdef : 2 ^ k * ((b + 2 ^ k - 1) / 2 ^ k) =
      (b + 2 ^ k - 1) - (b + 2 ^ k - 1) % 2 ^ k := by omega
  have hto : aligned_to iflash b =
      (b + 2 ^ k - 1) - (b + 2 ^ k - 1) % 2 ^ k - 1 := by
    unfold aligned_to
    rw [hmask, hbeq, u32_eq (by omega), u32not_low_mask (le_of_lt hk),
      land_himask hbmU2 (le_of_lt hk), hRdef]
    exact u32sub_le (by omega) (by omega)
  have hoff : Nat.land (u32 a) (2 ^ k - 1) = a % 2 ^ k := by
    rw [u32_eq ha32]
    exact land_low a k
  have hu32S : u32 (iflash.flash_start + iflash.flash_size) =
      iflash.flash_start + iflash.flash_size := u32_eq hS
  have hbRs : b ≤ (b + 2 ^ k - 1) - (b + 2 ^ k - 1) % 2 ^ k := by omega
  have hTr : u32 ((b + 2 ^ k - 1) - (b + 2 ^ k - 1) % 2 ^ k - 1 + iflash.flash_start) =
      (b + 2 ^ k - 1) - (b + 2 ^ k - 1) % 2 ^ k - 1 + iflash.flash_start :=
    u32_eq (by omega)
  have hFr : u32 (a - a % 2 ^ k + iflash.flash_start) =
      a - a % 2 ^ k + iflash.flash_start := u32_eq (by omega)
  refine ⟨fun hlt => ⟨fun hbad => ?_, fun hok => ?_⟩,
    fun hge => ⟨fun hbad => ?_, fun hok => ?_⟩⟩
  · have halign : load_align iflash a b = none := by
      simp only [load_align, hmask, hfrom, hto, hoff, if_pos hlt, hTr, hu32S, if_pos hbad]
    simp [load_hex, halign]
  · refine ⟨u32 (u32sub (aligned_to iflash b) (aligned_from iflash a) + 1), ?_⟩
    simp only [load_align, hmask, hfrom, hto, hoff, if_pos hlt, hTr, hu32S,
      if_neg (not_le.mpr hok), hFr]
  · have halign : load_align iflash a b = none := by
      simp only [load_align, hmask, hfrom, hto, hoff, if_neg (not_lt.mpr hge), hu32S,
        if_pos hbad]
    simp [load_hex, halign]
  · refine ⟨u32 (u32sub (aligned_to iflash b) (aligned_from iflash a) + 1), ?_⟩
    simp only [load_align, hmask, hfrom, hto, hoff, if_neg (not_lt.mpr hge), hu32S,
      if_neg (not_le.mpr hok)]

/-- C5 witness: the theorem applied at a zero-addressed record on the
geometry flash_start = 0x8000, flash_size = 0x8000, pagesize = 64:
the span [0, 0xFF] is translated to [0x8000, 0x80FF]; the span
[0, 0xFFFF], whose translated end 0x17FFF exceeds the flash end, is
rejected with no allocation. -/
theorem C5_load_translate_reject_witness :
    (∃ sz, load_align ⟨32768, 32768, 64⟩ 0 255 =
      some (0 - 0 % 2 ^ 6 + 32768, (255 + 2 ^ 6 - 1) - (255 + 2 ^ 6 - 1) % 2 ^ 6 - 1 + 32768,
        sz, 0 % 2 ^ 6)) ∧
    load_hex ⟨some (0, 65535), false, none⟩ ⟨32768, 32768, 64⟩ = none := by
  constructor
  · exact ((C5_load_translate_reject ⟨32768, 32768, 64⟩ 0 255 6 false none (by decide)
      (by decide) (by decide) (by decide) (by decide) (by decide) (by decide)
      (by decide)).1 (by decide)).2 (by decide)
  · exact ((C5_load_translate_reject ⟨32768, 32768, 64⟩ 0 65535 6 false none (by decide)
      (by decide) (by decide) (by decide) (by decide) (by decide) (by decide)
      (by decide)).1 (by decide)).1 (by decide)

/-- C2: counterexample.  On a device with flash_start = 0x8000 and
flash_size = 8192, the saved image spans [0, 8191]: its addr_from is 0,
not flash_start = 0x8000 as the claim states — cupdi.c lines 484-485 set
`addr_from = 0; addr_to = flash_size - 1`. -/
theorem C2_counterexample :
    ((updi_save nvmSave true true "firmware.hex").saved.map fun p => p.2.addr_from) =
      some 0 ∧
    ¬ ((updi_save nvmSave true true "firmware.hex").saved.map fun p => p.2.addr_from) =
      some 32768 := by
  constructor
  · rfl
  · decide

/-- C2 (amended): for every device whose geometry query succeeds, save
allocates a data buffer of exactly flash_size bytes, reads the entire
region [flash_start, flash_start + flash_size) through the driver in one
call, and persists it as a hex image of exactly flash_size bytes
spanning [0, flash_size - 1] — the image is addressed from zero, not
from flash_start — written to the path obtained by appending ".save" to
the base path; failure of any sub-step yields a distinct nonzero save
error (-2 geometry, -3 allocation, -4 read, -5 encoder). -/
theorem C2_updi_save (nvm : Nvm) (flash : flash_info_t) (file : String) (d : List Nat)
    (hgeo : nvm.get_flash_info = .ok flash)
    (hread : nvm.read_flash flash.flash_start flash.flash_size = .ok d) :
    updi_save nvm true true file =
      ⟨0, [.getFlashInfo, .readFlash flash.flash_start flash.flash_size],
        some (file ++ ".save", ⟨0, flash.flash_size - 1, 0, flash.flash_size, d⟩)⟩ ∧
    (updi_save nvm false true file).result = -3 ∧
    (updi_save nvm false true file).saved = none ∧
    (updi_save nvm true false file).result = -5 ∧
    (updi_save nvm true false file).saved = none ∧
    (∀ nvm2 : Nvm, ∀ e : Int, nvm2.get_flash_info = .error e →
      updi_save nvm2 true true file = ⟨-2, [.getFlashInfo], none⟩) ∧
    (∀ nvm2 : Nvm, ∀ flash2 : flash_info_t, ∀ e : Int,
      nvm2.get_flash_info = .ok flash2 →
      nvm2.read_flash flash2.flash_start flash2.flash_size = .error e →
      updi_save nvm2 true true file =
        ⟨-4, [.getFlashInfo, .readFlash flash2.flash_start flash2.flash_size], none⟩) := by
  refine ⟨?_, ?_, ?_, ?_, ?_, ?_, ?_⟩
  · simp [updi_save, hgeo, hread]
  · simp [updi_save, hgeo]
  · simp [updi_save, hgeo]
  · simp [updi_save, hgeo, hread]
  · simp [updi_save, hgeo, hread]
  · intro nvm2 e hg
    simp [updi_save, hg]
  · intro nvm2 flash2 e hg hr
    simp [updi_save, hg, hr]

/-- C2 witness: the amended theorem applied to the all-success oracle
with geometry flash_start = 0x8000, flash_size = 0x8000. -/
theorem C2_updi_save_witness :
    updi_save nvmOk true true "app.hex" =
      ⟨0, [.getFlashInfo, .readFlash 32768 32768],
        some ("app.hex.save", ⟨0, 32768 - 1, 0, 32768, List.replicate 32768 255⟩)⟩ :=
  (C2_updi_save nvmOk ⟨32768, 32768, 64⟩ "app.hex" (List.replicate 32768 255) rfl rfl).1

/-- The comparison loop helper returns `len` when the buffers agree at
every index in [i, len) and the fuel is `len - i`. -/
theorem verify_scan_aux_eq_len (d r : List Nat) (len : Nat) :
    ∀ n i, len - i = n → i ≤ len →
    (∀ j, i ≤ j → j < len → d.getD j 0 = r.getD j 0) →
    verify_scan_aux d r n i = len := by
  intro n
  induction n with
  | zero =>
    intro i hn hle _
    simp only [verify_scan_aux]
    omega
  | succ n ih =>
    intro i hn hle hall
    have hilt : i < len := by omega
    simp only [verify_scan_aux]
    have heq : d.getD i 0 = r.getD i 0 := hall i le_rfl hilt
    rw [heq]
    simp only [bne_self_eq_false, Bool.false_eq_true, if_false]
    exact ih (i + 1) (by omega) (by omega) (fun j hj hjl => hall j (by omega) hjl)

/-- The comparison loop returns `len` when the buffers agree at every
index in [i, len). -/
theorem verify_scan_eq_len (d r : List Nat) (len : Nat) :
    ∀ i, i ≤ len → (∀ j, i ≤ j → j < len → d.getD j 0 = r.getD j 0) →
    verify_scan d r len i = len := fun i hle hall =>
  verify_scan_aux_eq_len d r len (len - i) i rfl hle hall

/-- The comparison loop helper returns the first differing index when
the fuel is `len - i`. -/
theorem verify_scan_aux_eq_first (d r : List Nat) (len : Nat) :
    ∀ n i m, m - i = n → i ≤ m → m < len → d.getD m 0 ≠ r.getD m 0 →
    (∀ j, i ≤ j → j < m → d.getD j 0 = r.getD j 0) →
    verify_scan_aux d r (len - i) i = m := by
  intro n
  induction n with
  | zero =>
    intro i m hn him hm hne _
    have him2 : i = m := by omega
    subst him2
    cases hf : len - i with
    | zero => omega
    | succ t =>
      simp only [verify_scan_aux]
      rw [if_pos (bne_iff_ne.mpr hne)]
  | succ n ih =>
    intro i m hn him hm hne hall
    have hilt : i < m := by omega
    cases hf : len - i with
    | zero => omega
    | succ t =>
      simp only [verify_scan_aux]
      have heq : d.getD i 0 = r.getD i 0 := hall i le_rfl hilt
      rw [heq]
      simp only [bne_self_eq_false, Bool.false_eq_true, if_false]
      have ht : t = len - (i + 1) := by omega
      rw [ht]
      exact ih (i + 1) m (by omega) (by omega) hm hne
        (fun j hj hjl => hall j (by omega) hjl)

/-- The comparison loop returns the first differing index. -/
theorem verify_scan_eq_first (d r : List Nat) (len : Nat) :
    ∀ i m, i ≤ m → m < len → d.getD m 0 ≠ r.getD m 0 →
    (∀ j, i ≤ j → j < m → d.getD j 0 = r.getD j 0) →
    verify_scan d r len i = m := fun i m him hm hne hall =>
  verify_scan_aux_eq_first d r len (m - i) i m rfl him hm hne hall

/-- C4: verify reads exactly image.len bytes at image.addr_from through
the driver, succeeds (result 0) iff the bytes read equal the image bytes
at every offset below image.len, reports the first (smallest)
mismatching offset with expected/actual values when they differ, maps a
driver read failure to the distinct code -3 (primary mismatch failure is
-4), and executes free(rdata) on every outcome after a successful
allocation. -/
theorem C4_verify_first_mismatch (nvm : Nvm) (dhex : hex_data_t) :
    (∀ rdata, nvm.read_flash dhex.addr_from dhex.len = .ok rdata →
      (verify_hex nvm true dhex).calls = [.readFlash dhex.addr_from dhex.len] ∧
      (verify_hex nvm true dhex).freed = true ∧
      ((verify_hex nvm true dhex).result = 0 ↔
        ∀ i, i < dhex.len → dhex.data.getD i 0 = rdata.getD i 0) ∧
      (∀ m, m < dhex.len → dhex.data.getD m 0 ≠ rdata.getD m 0 →
        (∀ j, j < m → dhex.data.getD j 0 = rdata.getD j 0) →
        (verify_hex nvm true dhex).result = -4 ∧
        (verify_hex nvm true dhex).mismatch =
          some (m, dhex.data.getD m 0, rdata.getD m 0))) ∧
    (∀ e, nvm.read_flash dhex.addr_from dhex.len = .error e →
      verify_hex nvm true dhex = ⟨-3, none, [.readFlash dhex.addr_from dhex.len], true⟩) := by
  constructor
  · intro rdata hok
    refine ⟨?_, ?_, ?_, ?_⟩
    · by_cases hc : verify_scan dhex.data rdata dhex.len 0 < dhex.len <;>
        simp [verify_hex, hok, hc]
    · by_cases hc : verify_scan dhex.data rdata dhex.len 0 < dhex.len <;>
        simp [verify_hex, hok, hc]
    · constructor
      · intro hres
        by_contra hcon
        push_neg at hcon
        have hex2 : ∃ i, i < dhex.len ∧ dhex.data.getD i 0 ≠ rdata.getD i 0 := hcon
        have hm := Nat.find_spec hex2
        have hmin : ∀ j, j < Nat.find hex2 →
            ¬ (j < dhex.len ∧ dhex.data.getD j 0 ≠ rdata.getD j 0) :=
          fun j hj => Nat.find_min hex2 hj
        have hfirst : verify_scan dhex.data rdata dhex.len 0 = Nat.find hex2 := by
          refine verify_scan_eq_first dhex.data rdata dhex.len 0 (Nat.find hex2)
            (Nat.zero_le _) hm.1 hm.2 ?_
          intro j _ hjm
          by_contra hne2
          exact hmin j hjm ⟨by omega, hne2⟩
        rw [verify_hex] at hres
        simp only [hok] at hres
        rw [hfirst, if_pos hm.1] at hres
        exact absurd (show (-4 : Int) = 0 from hres) (by decide)
      · intro hall
        have hlen : verify_scan dhex.data rdata dhex.len 0 = dhex.len :=
          verify_scan_eq_len dhex.data rdata dhex.len 0 (Nat.zero_le _)
            (fun j _ hjl => hall j hjl)
        rw [verify_hex]
        simp only [hok]
        rw [hlen]
        simp
    · intro m hm hne hall
      have hfirst : verify_scan dhex.data rdata dhex.len 0 = m :=
        verify_scan_eq_first dhex.data rdata dhex.len 0 m (Nat.zero_le _) hm hne
          (fun j _ hjm => hall j hjm)
      rw [verify_hex]
      simp only [hok]
      rw [hfirst]
      simp [hm]
  · intro e herr
    simp [verify_hex, herr]

/-- C4 witness: the theorem applied to the all-success oracle — one
image equal to device memory verifies with result 0, and one differing
at offset 0 reports the first mismatch (0, 1, 255). -/
theorem C4_verify_first_mismatch_witness :
    (verify_hex nvmOk true ⟨32768, 32831, 0, 64, List.replicate 64 255⟩).result = 0 ∧
    (verify_hex nvmOk true ⟨32768, 32769, 0, 2, [1, 2]⟩).result = -4 ∧
    (verify_hex nvmOk true ⟨32768, 32769, 0, 2, [1, 2]⟩).mismatch = some (0, 1, 255) := by
  refine ⟨?_, ?_, ?_⟩
  · exact ((C4_verify_first_mismatch nvmOk ⟨32768, 32831, 0, 64, List.replicate 64 255⟩).1
      (List.replicate 64 255) rfl).2.2.1.mpr (by decide)
  · exact (((C4_verify_first_mismatch nvmOk ⟨32768, 32769, 0, 2, [1, 2]⟩).1
      (List.replicate 2 255) rfl).2.2.2 0 (by decide) (by decide) (by omega)).1
  · exact (((C4_verify_first_mismatch nvmOk ⟨32768, 32769, 0, 2, [1, 2]⟩).1
      (List.replicate 2 255) rfl).2.2.2 0 (by decide) (by decide) (by omega)).2

/-- C6: the fuse operation splits the spec on ':' and requires exactly
two tokens, parsing the index in base 10 and the value in base 16
(case-insensitive, optional 0x prefix, truncated to a byte by the (u8)
cast); a token count other than 2 returns the parse error -4 with no
device I/O, and otherwise exactly one fuse write is issued, whose driver
failure maps to the distinct error -3. -/
theorem C6_updi_fuse (nvm : Nvm) (s t0 t1 : String) :
    (str_split s ':' = [t0, t1] →
      (nvm.write_fuse (strtol t0 10) (strtol t1 16 % 256) = 0 →
        updi_fuse nvm s = (0, [.writeFuse (strtol t0 10) (strtol t1 16 % 256)])) ∧
      (nvm.write_fuse (strtol t0 10) (strtol t1 16 % 256) ≠ 0 →
        updi_fuse nvm s = (-3, [.writeFuse (strtol t0 10) (strtol t1 16 % 256)]))) ∧
    ((str_split s ':').length ≠ 2 → updi_fuse nvm s = (-4, [])) ∧
    strtol "0xaa" 16 = 170 ∧ strtol "0xAA" 16 = 170 ∧ strtol "3" 10 = 3 := by
  refine ⟨?_, ?_, by decide, by decide, by decide⟩
  · intro hs
    constructor
    · intro hw
      rw [updi_fuse, hs]
      simp [updi_fuse_tokens, hw]
    · intro hw
      rw [updi_fuse, hs]
      simp [updi_fuse_tokens, hw]
  · intro hlen
    rw [updi_fuse]
    simp only [updi_fuse_tokens]
    rw [if_neg hlen]

/-- C6 witness: the theorem applied to the spec "3:0xaa" (one fuse write
of value 0xAA = 170 at index 3) and to the three-token spec "3:0xaa:9"
(parse error, no device I/O). -/
theorem C6_updi_fuse_witness :
    updi_fuse nvmOk "3:0xaa" = (0, [.writeFuse 3 170]) ∧
    updi_fuse nvmOk "3:0xaa:9" = (-4, []) := by
  constructor
  · exact ((C6_updi_fuse nvmOk "3:0xaa" "3" "0xaa").1 (by decide)).1 (by decide)
  · exact (C6_updi_fuse nvmOk "3:0xaa:9" "" "").2.1 (by decide)

/-- C9: direct read requires exactly two ';'-delimited tokens, parses
the address in base 16 and the length in base 10, silently clamps any
length above 255 down to 255 (so "1000;300" reads 255 bytes at 0x1000),
returns the parse error -4 with no device I/O for any other token count,
and otherwise issues exactly one driver read whose failure yields the
driver I/O error -4. -/
theorem C9_updi_read (nvm : Nvm) (s t0 t1 : String) :
    (str_split s ';' = [t0, t1] →
      (∀ bs, nvm.read_mem (strtol t0 16) (min (strtol t1 10) 255) = .ok bs →
        updi_read nvm true s = (0, [.readMem (strtol t0 16) (min (strtol t1 10) 255)])) ∧
      (∀ e, nvm.read_mem (strtol t0 16) (min (strtol t1 10) 255) = .error e →
        updi_read nvm true s = (-4, [.readMem (strtol t0 16) (min (strtol t1 10) 255)]))) ∧
    ((str_split s ';').length ≠ 2 → updi_read nvm true s = (-4, [])) ∧
    strtol "1000" 16 = 4096 ∧ strtol "300" 10 = 300 ∧ min 300 255 = 255 := by
  refine ⟨?_, ?_, by decide, by decide, by decide⟩
  · intro hs
    have hclamp : (if strtol t1 10 > 255 then 255 else strtol t1 10) =
        min (strtol t1 10) 255 := by
      split <;> omega
    constructor
    · intro bs hok
      rw [updi_read, hs]
      simp only [updi_read_tokens, List.get?, hclamp]
      simp [hok]
    · intro e herr
      rw [updi_read, hs]
      simp only [updi_read_tokens, List.get?, hclamp]
      simp [herr]
  · intro hlen
    rw [updi_read]
    simp only [updi_read_tokens]
    rw [if_neg hlen]

/-- C9 witness: the theorem applied to the command "1000;300" on the
all-success oracle: one read of 255 bytes at address 0x1000. -/
theorem C9_updi_read_witness :
    updi_read nvmOk true "1000;300" = (0, [.readMem 4096 255]) :=
  ((C9_updi_read nvmOk "1000;300" "1000" "300").1 (by decide)).1
    (List.replicate 255 255) rfl

/-- With a successful rdata allocation, verify issues exactly one flash
read on every outcome. -/
theorem verify_hex_calls (nvm : Nvm) (dhex : hex_data_t) :
    (verify_hex nvm true dhex).calls = [.readFlash dhex.addr_from dhex.len] := by
  rw [verify_hex]
  cases h : nvm.read_flash dhex.addr_from dhex.len with
  | error e => simp [h]
  | ok rdata =>
    simp only [h]
    by_cases hc : verify_scan dhex.data rdata dhex.len 0 < dhex.len <;> simp [hc]

/-- C7: with check requested and the program bit clear, updi_flash never
issues a chip erase, a flash write, a memory write or a fuse write — for
every oracle and every load input its trace holds only the geometry
query and verify's flash read — and on a successful load it performs
exactly geometry query, load, verify; with the program bit set and the
erase and write succeeding, the sequence is exactly chip erase, then one
whole-image write, then the verify read, and verify runs unconditionally
in both modes. -/
theorem C7_updi_flash_check_vs_program (nvm : Nvm) (env : LoadEnv)
    (flash : flash_info_t) (dhex : hex_data_t)
    (hgeo : nvm.get_flash_info = .ok flash)
    (hload : load_hex env flash = some dhex) :
    updi_flash nvm env true false =
      ((if (verify_hex nvm true dhex).result ≠ 0 then -3 else 0),
        [.getFlashInfo, .readFlash dhex.addr_from dhex.len]) ∧
    (∀ nvm2 : Nvm, ∀ env2 : LoadEnv, ∀ vm2 : Bool,
      ∀ c ∈ (updi_flash nvm2 env2 vm2 false).2,
        c = .getFlashInfo ∨ ∃ a l, c = .readFlash a l) ∧
    (nvm.chip_erase = 0 → nvm.write_flash dhex.addr_from dhex.data dhex.len = 0 →
      updi_flash nvm env true true =
        ((if (verify_hex nvm true dhex).result ≠ 0 then -3 else 0),
          [.getFlashInfo, .chipErase, .writeFlash dhex.addr_from dhex.data dhex.len,
            .readFlash dhex.addr_from dhex.len])) := by
  refine ⟨?_, ?_, ?_⟩
  · rw [updi_flash]
    simp only [hgeo, hload]
    simp [verify_hex_calls nvm dhex]
  · intro nvm2 env2 vm2 c hc
    rw [updi_flash] at hc
    cases hg2 : nvm2.get_flash_info with
    | error e =>
      simp only [hg2] at hc
      simp at hc
      simp [hc]
    | ok flash2 =>
      simp only [hg2] at hc
      cases hl2 : load_hex env2 flash2 with
      | none =>
        simp only [hl2] at hc
        simp at hc
        simp [hc]
      | some dh2 =>
        simp only [hl2] at hc
        simp only [Bool.false_eq_true, if_false, ite_self] at hc
        simp at hc
        rcases hc with hc | hc
        · simp [hc]
        · right
          cases hv : nvm2.read_flash dh2.addr_from dh2.len with
          | error e =>
            rw [verify_hex] at hc
            cases hvm : vm2 with
            | false => simp [hvm] at hc
            | true =>
              simp only [hvm, hv] at hc
              simp at hc
              exact ⟨dh2.addr_from, dh2.len, hc⟩
          | ok rdata =>
            rw [verify_hex] at hc
            cases hvm : vm2 with
            | false => simp [hvm] at hc
            | true =>
              simp only [hvm, hv] at hc
              by_cases hsc : verify_scan dh2.data rdata dh2.len 0 < dh2.len <;>
                simp [hsc] at hc <;>
                exact ⟨dh2.addr_from, dh2.len, hc⟩
  · intro herase hwrite
    rw [updi_flash]
    simp only [hgeo, hload]
    simp [herase, hwrite, verify_hex_calls nvm dhex]

/-- C7 witness: the theorem applied to the all-success oracle and a
one-page image: check-only yields geometry query plus the verify read,
program mode yields erase, whole-image write, then the verify read. -/
theorem C7_updi_flash_check_vs_program_witness :
    updi_flash nvmOk ⟨some (32768, 32769), true, some (List.replicate 64 255)⟩ true false =
      (0, [.getFlashInfo, .readFlash 32768 64]) ∧
    updi_flash nvmOk ⟨some (32768, 32769), true, some (List.replicate 64 255)⟩ true true =
      (0, [.getFlashInfo, .chipErase, .writeFlash 32768 (List.replicate 64 255) 64,
        .readFlash 32768 64]) := by
  have h := C7_updi_flash_check_vs_program nvmOk
    ⟨some (32768, 32769), true, some (List.replicate 64 255)⟩
    ⟨32768, 32768, 64⟩ ⟨32768, 32831, 0, 64, List.replicate 64 255⟩ rfl (by decide)
  constructor
  · have h1 := h.1
    rw [show (verify_hex nvmOk true ⟨32768, 32831, 0, 64, List.replicate 64 255⟩).result = 0
      from by decide] at h1
    simpa using h1
  · have h3 := h.2.2 rfl rfl
    rw [show (verify_hex nvmOk true ⟨32768, 32831, 0, 64, List.replicate 64 255⟩).result = 0
      from by decide] at h3
    simpa using h3

/-- updi_erase only issues the chip-erase call. -/
theorem updi_erase_shape (nvm : Nvm) : ∀ c ∈ (updi_erase nvm).2, tail_shape c := by
  intro c hc
  rw [updi_erase] at hc
  by_cases h : nvm.chip_erase ≠ 0 <;> simp [h] at hc <;> simp [tail_shape, hc]

/-- updi_fuse only issues fuse-write calls. -/
theorem updi_fuse_shape (nvm : Nvm) (s : String) :
    ∀ c ∈ (updi_fuse nvm s).2, tail_shape c := by
  intro c hc
  rw [updi_fuse, updi_fuse_tokens] at hc
  split at hc
  · split at hc <;> (simp at hc; simp [tail_shape, hc])
  · simp at hc

/-- updi_read only issues memory-read calls. -/
theorem updi_read_shape (nvm : Nvm) (m : Bool) (s : String) :
    ∀ c ∈ (updi_read nvm m s).2, tail_shape c := by
  intro c hc
  rw [updi_read, updi_read_tokens] at hc
  split at hc
  · split at hc
    · simp at hc
    · split at hc <;> (simp at hc; simp [tail_shape, hc])
  · simp at hc

/-- verify_hex only issues flash-read calls. -/
theorem verify_hex_shape (nvm : Nvm) (m : Bool) (dhex : hex_data_t) :
    ∀ c ∈ (verify_hex nvm m dhex).calls, tail_shape c := by
  intro c hc
  rw [verify_hex] at hc
  by_cases hm : m
  · simp only [hm] at hc
    cases hr : nvm.read_flash dhex.addr_from dhex.len with
    | error e => simp [hr] at hc; simp [tail_shape, hc]
    | ok rdata =>
      simp only [hr] at hc
      by_cases hs : verify_scan dhex.data rdata dhex.len 0 < dhex.len <;>
        simp [hs] at hc <;> simp [tail_shape, hc]
  · simp [hm] at hc

/-- updi_flash only issues geometry queries, chip erases, flash writes
and flash reads. -/
theorem updi_flash_shape (nvm : Nvm) (env : LoadEnv) (vm prog : Bool) :
    ∀ c ∈ (updi_flash nvm env vm prog).2, tail_shape c := by
  intro c hc
  rw [updi_flash] at hc
  cases hg : nvm.get_flash_info with
  | error e => simp [hg] at hc; simp [tail_shape, hc]
  | ok flash =>
    simp only [hg] at hc
    cases hl : load_hex env flash with
    | none => simp [hl] at hc; simp [tail_shape, hc]
    | some dhex =>
      simp only [hl] at hc
      by_cases hp : prog
      · subst hp
        by_cases he : nvm.chip_erase ≠ 0
        · simp [he] at hc
          rcases hc with hc | hc <;> simp [tail_shape, hc]
        · by_cases hw : nvm.write_flash dhex.addr_from dhex.data dhex.len ≠ 0
          · simp [he, hw] at hc
            rcases hc with hc | hc | hc <;> simp [tail_shape, hc]
          · simp [he, hw] at hc
            rcases hc with hc | hc | hc | hc
            · simp [tail_shape, hc]
            · simp [tail_shape, hc]
            · simp [tail_shape, hc]
            · exact verify_hex_shape nvm vm dhex c hc
      · simp only [Bool.not_eq_true] at hp
        subst hp
        simp at hc
        rcases hc with hc | hc
        · simp [tail_shape, hc]
        · exact verify_hex_shape nvm vm dhex c hc

/-- updi_save only issues geometry queries and flash reads. -/
theorem updi_save_shape (nvm : Nvm) (m so : Bool) (f : String) :
    ∀ c ∈ (updi_save nvm m so f).calls, tail_shape c := by
  intro c hc
  rw [updi_save] at hc
  cases hg : nvm.get_flash_info with
  | error e => simp [hg] at hc; simp [tail_shape, hc]
  | ok flash =>
    simp only [hg] at hc
    by_cases hm : m
    · simp only [hm] at hc
      cases hr : nvm.read_flash flash.flash_start flash.flash_size with
      | error e =>
        simp [hr] at hc
        rcases hc with hc | hc <;> simp [tail_shape, hc]
      | ok d =>
        by_cases hs : so <;> simp [hr, hs] at hc <;>
          rcases hc with hc | hc <;> simp [tail_shape, hc]
    · simp [hm] at hc
      simp [tail_shape, hc]

/-- Every call the byte-token loop adds to its accumulator is a memory
write. -/
theorem write_loop_shape (nvm : Nvm) (addr : Nat) :
    ∀ toks i buf dirty j res calls,
      ∀ c ∈ (write_loop nvm addr toks i buf dirty j res calls).2.2.2.2.2,
        c ∈ calls ∨ ∃ a d, c = NvmCall.writeMem a d := by
  intro toks
  induction toks with
  | nil =>
    intro i buf dirty j res calls c hc
    rw [write_loop] at hc
    exact Or.inl hc
  | cons tok rest ih =>
    intro i buf dirty j res calls c hc
    rw [write_loop] at hc
    by_cases hres : res = 0
    · simp only [hres, if_pos rfl] at hc
      by_cases hj : (i - 1) % 16 + 1 = 16
      · simp only [hj, if_pos rfl] at hc
        rcases ih _ _ _ _ _ _ c hc with hin | hw
        · rcases List.mem_append.mp hin with h1 | h1
          · exact Or.inl h1
          · simp at h1
            exact Or.inr ⟨_, _, h1⟩
        · exact Or.inr hw
      · simp only [hj, if_false] at hc
        exact ih _ _ _ _ _ _ c hc
    · simp only [hres, if_false] at hc
      exact ih _ _ _ _ _ _ c hc

/-- Every call of the readback loop is a memory read. -/
theorem readback_aux_shape (nvm : Nvm) (addr n : Nat) :
    ∀ fuel j, ∀ c ∈ (readback_aux nvm addr n fuel j).2, ∃ a l, c = NvmCall.readMem a l := by
  intro fuel
  induction fuel with
  | zero =>
    intro j c hc
    simp [readback_aux] at hc
  | succ fuel ih =>
    intro j c hc
    rw [readback_aux] at hc
    by_cases hj : j < n
    · simp only [hj, if_pos rfl] at hc
      cases hr : nvm.read_mem (addr + j) (min (n - j) 16) with
      | error e =>
        simp [hr] at hc
        exact ⟨_, _, hc⟩
      | ok bs =>
        simp only [hr] at hc
        simp at hc
        rcases hc with hc | hc
        · exact ⟨_, _, hc⟩
        · exact ih _ c hc
    · simp [hj] at hc

/-- Every call the final flush adds is a memory write. -/
theorem write_flush_shape (nvm : Nvm) (addr : Nat)
    (st : Nat × List Nat × Bool × Nat × Int × List NvmCall) :
    ∀ c ∈ (write_flush nvm addr st).2,
      c ∈ st.2.2.2.2.2 ∨ ∃ a d, c = NvmCall.writeMem a d := by
  intro c hc
  rw [write_flush] at hc
  split at hc
  · simp at hc
    rcases hc with hc | hc
    · exact Or.inl hc
    · exact Or.inr ⟨_, _, hc⟩
  · exact Or.inl hc

/-- updi_write only issues memory writes and memory reads. -/
theorem updi_write_shape (nvm : Nvm) (s : String) :
    ∀ c ∈ (updi_write nvm s).2, tail_shape c := by
  intro c hc
  rw [updi_write] at hc
  cases htoks : str_split s ';' with
  | nil =>
    rw [htoks] at hc
    simp [updi_write_tokens] at hc
  | cons t0 rest =>
    rw [htoks, updi_write_tokens] at hc
    have hloop : ∀ c2 ∈ (write_loop nvm (strtol t0 16) rest 1
        (List.replicate 16 0) false 0 0 []).2.2.2.2.2, ∃ a d, c2 = NvmCall.writeMem a d := by
      intro c2 hc2
      rcases write_loop_shape nvm (strtol t0 16) rest 1 (List.replicate 16 0) false 0 0 []
          c2 hc2 with h1 | h1
      · simp at h1
      · exact h1
    have hflush : ∀ c2 ∈ (write_flush nvm (strtol t0 16) (write_loop nvm (strtol t0 16)
        rest 1 (List.replicate 16 0) false 0 0 [])).2, ∃ a d, c2 = NvmCall.writeMem a d := by
      intro c2 hc2
      rcases write_flush_shape nvm (strtol t0 16) _ c2 hc2 with h1 | h1
      · exact hloop c2 h1
      · exact h1
    simp only [] at hc
    split at hc
    · simp at hc
      rcases hc with hc | hc
      · rcases hflush c hc with ⟨a, d, h⟩
        simp [tail_shape, h]
      · rcases readback_aux_shape nvm (strtol t0 16) _ _ _ c hc with ⟨a, l, h⟩
        simp [tail_shape, h]
    · rcases hflush c hc with ⟨a, d, h⟩
      simp [tail_shape, h]

/-- Every driver call of main's post-unlock chain is a tail-shaped call:
the chain never queries device info, enters program mode or unlocks. -/
theorem main_steps_shape (args : MainArgs) (env : MainEnv) (nvm : Nvm) (flag : Nat) :
    ∀ c ∈ (main_steps args env nvm flag).2, tail_shape c := by
  intro c hc
  rw [main_steps] at hc
  simp only [] at hc
  set estep := if flag.testBit FLAG_ERASE then updi_erase nvm
    else ((0 : Int), ([] : List NvmCall)) with hE
  set fstep := (match args.fuses with
    | some fs => updi_fuse nvm fs
    | none => ((0 : Int), ([] : List NvmCall))) with hF
  set pstep := (match args.file with
    | some _ =>
      if flag.testBit FLAG_PROG ∨ flag.testBit FLAG_CHECK then
        updi_flash nvm env.load env.vmalloc (flag.testBit FLAG_PROG)
      else ((0 : Int), ([] : List NvmCall))
    | none => ((0 : Int), ([] : List NvmCall))) with hP
  set sstep := (match args.file with
    | some f =>
      if flag.testBit FLAG_SAVE then
        ((updi_save nvm env.smalloc env.save_ok f).result,
          (updi_save nvm env.smalloc env.save_ok f).calls)
      else ((0 : Int), ([] : List NvmCall))
    | none => ((0 : Int), ([] : List NvmCall))) with hS
  set rstep := (match args.read with
    | some rc => updi_read nvm env.rmalloc rc
    | none => ((0 : Int), ([] : List NvmCall))) with hR
  set wstep := (match args.write with
    | some wc => updi_write nvm wc
    | none => ((0 : Int), ([] : List NvmCall))) with hW
  have he : ∀ c2 ∈ estep.2, tail_shape c2 := by
    rw [hE]
    intro c2 hc2
    split at hc2
    · exact updi_erase_shape nvm c2 hc2
    · simp at hc2
  have hf : ∀ c2 ∈ fstep.2, tail_shape c2 := by
    rw [hF]
    intro c2 hc2
    cases hfu : args.fuses with
    | none => simp only [hfu] at hc2; simp at hc2
    | some fs => simp only [hfu] at hc2; exact updi_fuse_shape nvm fs c2 hc2
  have hp : ∀ c2 ∈ pstep.2, tail_shape c2 := by
    rw [hP]
    intro c2 hc2
    cases hfi : args.file with
    | none => simp only [hfi] at hc2; simp at hc2
    | some f =>
      simp only [hfi] at hc2
      split at hc2
      · exact updi_flash_shape nvm env.load env.vmalloc _ c2 hc2
      · simp at hc2
  have hs : ∀ c2 ∈ sstep.2, tail_shape c2 := by
    rw [hS]
    intro c2 hc2
    cases hfi : args.file with
    | none => simp only [hfi] at hc2; simp at hc2
    | some f =>
      simp only [hfi] at hc2
      split at hc2
      · exact updi_save_shape nvm env.smalloc env.save_ok f c2 hc2
      · simp at hc2
  have hr : ∀ c2 ∈ rstep.2, tail_shape c2 := by
    rw [hR]
    intro c2 hc2
    cases hrd : args.read with
    | none => simp only [hrd] at hc2; simp at hc2
    | some rc => simp only [hrd] at hc2; exact updi_read_shape nvm env.rmalloc rc c2 hc2
  have hw : ∀ c2 ∈ wstep.2, tail_shape c2 := by
    rw [hW]
    intro c2 hc2
    cases hwr : args.write with
    | none => simp only [hwr] at hc2; simp at hc2
    | some wc => simp only [hwr] at hc2; exact updi_write_shape nvm wc c2 hc2
  clear hE hF hP hS hR hW
  split at hc
  · exact he c hc
  · split at hc
    · rcases List.mem_append.mp hc with h | h
      · exact he c h
      · exact hf c h
    · split at hc
      · rcases List.mem_append.mp hc with h | h
        · rcases List.mem_append.mp h with h2 | h2
          · exact he c h2
          · exact hf c h2
        · exact hp c h
      · split at hc
        · rcases List.mem_append.mp hc with h | h
          · rcases List.mem_append.mp h with h2 | h2
            · rcases List.mem_append.mp h2 with h3 | h3
              · exact he c h3
              · exact hf c h3
            · exact hp c h2
          · exact hs c h
        · split at hc
          · rcases List.mem_append.mp hc with h | h
            · rcases List.mem_append.mp h with h2 | h2
              · rcases List.mem_append.mp h2 with h3 | h3
                · rcases List.mem_append.mp h3 with h4 | h4
                  · exact he c h4
                  · exact hf c h4
                · exact hp c h3
              · exact hs c h2
            · exact hr c h
          · split at hc
            all_goals {
              rcases List.mem_append.mp hc with h | h
              · rcases List.mem_append.mp h with h2 | h2
                · rcases List.mem_append.mp h2 with h3 | h3
                  · rcases List.mem_append.mp h3 with h4 | h4
                    · rcases List.mem_append.mp h4 with h5 | h5
                      · exact he c h5
                      · exact hf c h5
                    · exact hp c h4
                  · exact hs c h3
                · exact hr c h2
              · exact hw c h
            }

/-- Trace decomposition of main_run: the trace is empty, or one
device-info query followed by an unlock segment (one of four fixed
forms, empty when program-mode entry is not requested) and a tail of
tail-shaped calls. -/
theorem main_run_decomp (args : MainArgs) (env : MainEnv) (nvm : Nvm) :
    ∃ tu tr : List NvmCall,
      ((main_run args env nvm).2 = [] ∨
        (main_run args env nvm).2 = NvmCall.getDeviceInfo :: (tu ++ tr)) ∧
      (tu = [] ∨ tu = [.enterProgmode, .unlockDevice] ∨
        tu = [.enterProgmode, .unlockDevice, .getDeviceInfo] ∨
        tu = [.enterProgmode, .getDeviceInfo]) ∧
      (main_unlock args = false → tu = []) ∧
      (∀ c ∈ tr, tail_shape c) := by
  rw [main_run]
  by_cases h1 : env.chip_ok
  · by_cases h2 : env.init_ok
    · by_cases h3 : nvm.get_device_info = 0
      · by_cases hu : main_unlock args
        · by_cases he : nvm.enter_progmode = 0
          · by_cases hi2 : nvm.get_device_info2 = 0
            · exact ⟨[.enterProgmode, .getDeviceInfo],
                (main_steps args env nvm (main_flag args)).2,
                Or.inr (by simp [h1, h2, h3, hu, he, hi2]),
                by simp, by simp [hu], main_steps_shape args env nvm _⟩
            · exact ⟨[.enterProgmode, .getDeviceInfo], [],
                Or.inr (by simp [h1, h2, h3, hu, he, hi2]),
                by simp, by simp [hu], by simp⟩
          · by_cases hul : nvm.unlock_device = 0
            · by_cases hi2 : nvm.get_device_info2 = 0
              · exact ⟨[.enterProgmode, .unlockDevice, .getDeviceInfo],
                  (main_steps args env nvm (main_flag args)).2,
                  Or.inr (by simp [h1, h2, h3, hu, he, hul, hi2]),
                  by simp, by simp [hu], main_steps_shape args env nvm _⟩
              · exact ⟨[.enterProgmode, .unlockDevice, .getDeviceInfo], [],
                  Or.inr (by simp [h1, h2, h3, hu, he, hul, hi2]),
                  by simp, by simp [hu], by simp⟩
            · exact ⟨[.enterProgmode, .unlockDevice], [],
                Or.inr (by simp [h1, h2, h3, hu, he, hul]),
                by simp, by simp [hu], by simp⟩
        · exact ⟨[], (main_steps args env nvm (main_flag args)).2,
            Or.inr (by simp [h1, h2, h3, hu]),
            Or.inl rfl, fun _ => rfl, main_steps_shape args env nvm _⟩
      · exact ⟨[], [], Or.inr (by simp [h1, h2, h3]), Or.inl rfl, fun _ => rfl, by simp⟩
    · exact ⟨[], [], Or.inl (by simp [h1, h2]), Or.inl rfl, fun _ => rfl, by simp⟩
  · exact ⟨[], [], Or.inl (by simp [h1]), Or.inl rfl, fun _ => rfl, by simp⟩

/-- C8: program-mode entry is attempted only when unlock, erase or
program was requested (otherwise neither entry nor unlock ever appears
in the trace); when requested and the device info query succeeded, entry
is attempted, and if it fails exactly one recovery
(unlock-with-chip-erase) is made: recovery failure is fatal with -5,
failure of the device-info re-query is fatal with -6 (distinct codes),
the run aborting right there; and no additional retries ever happen —
entry and unlock each occur at most once in any run's trace. -/
theorem C8_main_unlock_recovery (args : MainArgs) (env : MainEnv) (nvm : Nvm) :
    (main_unlock args = false →
      NvmCall.enterProgmode ∉ (main_run args env nvm).2 ∧
      NvmCall.unlockDevice ∉ (main_run args env nvm).2) ∧
    (env.chip_ok = true → env.init_ok = true → nvm.get_device_info = 0 →
      main_unlock args = true →
      NvmCall.enterProgmode ∈ (main_run args env nvm).2 ∧
      (nvm.enter_progmode ≠ 0 → nvm.unlock_device ≠ 0 →
        main_run args env nvm = (-5, [.getDeviceInfo, .enterProgmode, .unlockDevice])) ∧
      (nvm.enter_progmode ≠ 0 → nvm.unlock_device = 0 → nvm.get_device_info2 ≠ 0 →
        main_run args env nvm =
          (-6, [.getDeviceInfo, .enterProgmode, .unlockDevice, .getDeviceInfo]))) ∧
    (main_run args env nvm).2.count NvmCall.enterProgmode ≤ 1 ∧
    (main_run args env nvm).2.count NvmCall.unlockDevice ≤ 1 ∧
    (-5 : Int) ≠ -6 := by
  obtain ⟨tu, tr, htr, htu4, htuf, hshape⟩ := main_run_decomp args env nvm
  have htr0e : tr.count NvmCall.enterProgmode = 0 := by
    rw [List.count_eq_zero]
    intro hmem
    have := hshape _ hmem
    simp [tail_shape] at this
  have htr0u : tr.count NvmCall.unlockDevice = 0 := by
    rw [List.count_eq_zero]
    intro hmem
    have := hshape _ hmem
    simp [tail_shape] at this
  have htre : NvmCall.enterProgmode ∉ tr := by
    intro hmem
    have := hshape _ hmem
    simp [tail_shape] at this
  have htru : NvmCall.unlockDevice ∉ tr := by
    intro hmem
    have := hshape _ hmem
    simp [tail_shape] at this
  refine ⟨?_, ?_, ?_, ?_, by decide⟩
  · intro hu
    have htue : tu = [] := htuf hu
    subst htue
    rcases htr with h | h <;> rw [h]
    · simp
    · simp only [List.nil_append]
      constructor
      · intro hmem
        rcases List.mem_cons.mp hmem with h2 | h2
        · simp at h2
        · exact htre h2
      · intro hmem
        rcases List.mem_cons.mp hmem with h2 | h2
        · simp at h2
        · exact htru h2
  · intro h1 h2 h3 hu
    refine ⟨?_, ?_, ?_⟩
    · rw [main_run]
      by_cases he : nvm.enter_progmode = 0 <;> by_cases hul : nvm.unlock_device = 0 <;>
        by_cases hi2 : nvm.get_device_info2 = 0 <;>
        simp [h1, h2, h3, hu, he, hul, hi2]
    · intro he hul
      rw [main_run]
      simp [h1, h2, h3, hu, he, hul]
    · intro he hul hi2
      rw [main_run]
      simp [h1, h2, h3, hu, he, hul, hi2]
  · rcases htr with h | h <;> rw [h]
    · simp
    · rcases htu4 with h4 | h4 | h4 | h4 <;> subst h4 <;>
        simp [List.count_cons, List.count_append, htr0e]
  · rcases htr with h | h <;> rw [h]
    · simp
    · rcases htu4 with h4 | h4 | h4 | h4 <;> subst h4 <;>
        simp [List.count_cons, List.count_append, htr0u]

/-- C8 witness: the theorem applied to a locked device (entry fails with
1, recovery fails with 2) on an erase request — result -5 after exactly
one entry and one unlock attempt — and to a run with no unlock, erase or
program request, whose trace never enters program mode. -/
theorem C8_main_unlock_recovery_witness :
    main_run ⟨none, none, none, none, 2⟩
      ⟨true, true, ⟨none, true, none⟩, true, true, true, true⟩
      { nvmOk with enter_progmode := 1, unlock_device := 2 } =
      (-5, [.getDeviceInfo, .enterProgmode, .unlockDevice]) ∧
    NvmCall.enterProgmode ∉
      (main_run ⟨none, none, none, none, 0⟩
        ⟨true, true, ⟨none, true, none⟩, true, true, true, true⟩ nvmOk).2 := by
  constructor
  · exact ((C8_main_unlock_recovery ⟨none, none, none, none, 2⟩
      ⟨true, true, ⟨none, true, none⟩, true, true, true, true⟩
      { nvmOk with enter_progmode := 1, unlock_device := 2 }).2.1 rfl rfl rfl
      (by decide)).2.1 (by decide) (by decide)
  · exact ((C8_main_unlock_recovery ⟨none, none, none, none, 0⟩
      ⟨true, true, ⟨none, true, none⟩, true, true, true, true⟩ nvmOk).1 (by decide)).1

/-- verify succeeds when the driver returns exactly the image bytes. -/
theorem verify_hex_self (nvm : Nvm) (dhex : hex_data_t)
    (h : nvm.read_flash dhex.addr_from dhex.len = .ok dhex.data) :
    verify_hex nvm true dhex = ⟨0, none, [.readFlash dhex.addr_from dhex.len], true⟩ := by
  rw [verify_hex]
  simp only [h]
  have hs : verify_scan dhex.data dhex.data dhex.len 0 = dhex.len :=
    verify_scan_eq_len _ _ _ 0 (Nat.zero_le _) (fun j _ _ => rfl)
  rw [hs]
  simp

/-- updi_flash in program mode with every driver call succeeding and the
device reading back the image: erase, whole-image write, verify read. -/
theorem updi_flash_prog_ok (nvm : Nvm) (env : LoadEnv) (flash : flash_info_t)
    (dhex : hex_data_t)
    (hgeo : nvm.get_flash_info = .ok flash)
    (hload : load_hex env flash = some dhex)
    (herase : nvm.chip_erase = 0)
    (hwf : nvm.write_flash dhex.addr_from dhex.data dhex.len = 0)
    (hrf : nvm.read_flash dhex.addr_from dhex.len = .ok dhex.data) :
    updi_flash nvm env true true =
      (0, [.getFlashInfo, .chipErase, .writeFlash dhex.addr_from dhex.data dhex.len,
        .readFlash dhex.addr_from dhex.len]) := by
  rw [updi_flash]
  simp [hgeo, hload, herase, hwf, verify_hex_self nvm dhex hrf]

/-- C10: when a hex file is supplied and no flag bit is set, main
silently sets the program flag (the effective flag becomes 1 << FLAG_PROG
= 4), which requests program-mode entry; a run with that input performs
the full cycle — device info, program-mode entry, info re-query, flash
geometry, chip erase, one whole-image write, verify read — rather than
no action. -/
theorem C10_main_implicit_program (args : MainArgs) (env : MainEnv) (nvm : Nvm)
    (f : String) (flash : flash_info_t) (dhex : hex_data_t)
    (hfile : args.file = some f) (hflag : args.flag = 0)
    (hfuses : args.fuses = none) (hread : args.read = none) (hwrite : args.write = none)
    (hchip : env.chip_ok = true) (hinit : env.init_ok = true)
    (hvm : env.vmalloc = true)
    (hinfo : nvm.get_device_info = 0) (henter : nvm.enter_progmode = 0)
    (hinfo2 : nvm.get_device_info2 = 0)
    (hgeo : nvm.get_flash_info = .ok flash)
    (hload : load_hex env.load flash = some dhex)
    (herase : nvm.chip_erase = 0)
    (hwf : nvm.write_flash dhex.addr_from dhex.data dhex.len = 0)
    (hrf : nvm.read_flash dhex.addr_from dhex.len = .ok dhex.data) :
    main_flag args = 4 ∧ main_unlock args = true ∧
    main_run args env nvm =
      (0, [.getDeviceInfo, .enterProgmode, .getDeviceInfo, .getFlashInfo, .chipErase,
        .writeFlash dhex.addr_from dhex.data dhex.len,
        .readFlash dhex.addr_from dhex.len]) := by
  have hmf : main_flag args = 4 := by
    rw [main_flag, hfile, hflag]
    simp
    decide
  have hmu : main_unlock args = true := by
    rw [main_unlock, hmf]
    decide
  refine ⟨hmf, hmu, ?_⟩
  have hb1 : Nat.testBit 4 FLAG_ERASE = false := by decide
  have hb2 : Nat.testBit 4 FLAG_PROG = true := by decide
  have hb3 : Nat.testBit 4 FLAG_CHECK = false := by decide
  have hb4 : Nat.testBit 4 FLAG_SAVE = false := by decide
  have hms : main_steps args env nvm 4 =
      (0, [.getFlashInfo, .chipErase, .writeFlash dhex.addr_from dhex.data dhex.len,
        .readFlash dhex.addr_from dhex.len]) := by
    rw [main_steps]
    simp [hb1, hb2, hb3, hb4, hfuses, hfile, hread, hwrite, hvm,
      updi_flash_prog_ok nvm env.load flash dhex hgeo hload herase hwf hrf]
  rw [main_run]
  simp [hmf, hmu, hchip, hinit, hinfo, henter, hinfo2, hms]

/-- C10 witness: the theorem applied to a run given only a file, on the
all-success oracle: the effective flag is the program bit and the trace
is the full entry / erase / program / verify cycle. -/
theorem C10_main_implicit_program_witness :
    main_flag ⟨some "app.hex", none, none, none, 0⟩ = 4 ∧
    main_unlock ⟨some "app.hex", none, none, none, 0⟩ = true ∧
    main_run ⟨some "app.hex", none, none, none, 0⟩
      ⟨true, true, ⟨some (32768, 32769), true, some (List.replicate 64 255)⟩,
        true, true, true, true⟩ nvmOk =
      (0, [.getDeviceInfo, .enterProgmode, .getDeviceInfo, .getFlashInfo, .chipErase,
        .writeFlash 32768 (List.replicate 64 255) 64, .readFlash 32768 64]) :=
  C10_main_implicit_program ⟨some "app.hex", none, none, none, 0⟩
    ⟨true, true, ⟨some (32768, 32769), true, some (List.replicate 64 255)⟩,
      true, true, true, true⟩ nvmOk "app.hex" ⟨32768, 32768, 64⟩
    ⟨32768, 32831, 0, 64, List.replicate 64 255⟩ rfl rfl rfl rfl rfl rfl rfl rfl rfl rfl
    rfl rfl (by decide) rfl rfl rfl

/-- The window-chunking helper does not depend on the exact fuel, as
long as it covers the stream length. -/
theorem full_chunks_aux_congr :
    ∀ f1 f2 a (s : List Nat), s.length ≤ f1 → s.length ≤ f2 →
      full_chunks_aux a f1 s = full_chunks_aux a f2 s := by
  intro f1
  induction f1 with
  | zero =>
    intro f2 a s h1 _
    have hs : s = [] := List.eq_nil_of_length_eq_zero (by omega)
    subst hs
    cases f2 with
    | zero => rfl
    | succ f2 => simp [full_chunks_aux]
  | succ f1 ih =>
    intro f2 a s h1 h2
    cases f2 with
    | zero =>
      have hs : s = [] := List.eq_nil_of_length_eq_zero (by omega)
      subst hs
      simp [full_chunks_aux]
    | succ f2 =>
      simp only [full_chunks_aux]
      by_cases h16 : 16 ≤ s.length
      · rw [if_pos h16, if_pos h16,
          ih f2 (a + 16) (s.drop 16) (by rw [List.length_drop]; omega)
            (by rw [List.length_drop]; omega)]
      · rw [if_neg h16, if_neg h16]

/-- Unfolding a full window from the chunk list. -/
theorem full_chunks_cons (a : Nat) (s : List Nat) (h : 16 ≤ s.length) :
    full_chunks a s = .writeMem a (s.take 16) :: full_chunks (a + 16) (s.drop 16) := by
  rw [full_chunks]
  cases hl : s.length with
  | zero => omega
  | succ n =>
    simp only [full_chunks_aux]
    rw [if_pos h]
    congr 1
    rw [full_chunks]
    exact full_chunks_aux_congr n (s.drop 16).length (a + 16) (s.drop 16)
      (by rw [List.length_drop]; omega) le_rfl

/-- A stream shorter than one window has no full chunk. -/
theorem full_chunks_nil (a : Nat) (s : List Nat) (h : s.length < 16) :
    full_chunks a s = [] := by
  rw [full_chunks]
  cases hl : s.length with
  | zero => rfl
  | succ n =>
    simp only [full_chunks_aux]
    rw [if_neg (by omega)]

/-- The readback-chunking helper does not depend on the exact fuel, as
long as it covers the count. -/
theorem read_chunks_aux_congr :
    ∀ f1 f2 a n, n ≤ f1 → n ≤ f2 → read_chunks_aux f1 a n = read_chunks_aux f2 a n := by
  intro f1
  induction f1 with
  | zero =>
    intro f2 a n h1 _
    have h0 : n = 0 := by omega
    subst h0
    cases f2 with
    | zero => rfl
    | succ f2 => simp [read_chunks_aux]
  | succ f1 ih =>
    intro f2 a n h1 h2
    cases f2 with
    | zero =>
      have h0 : n = 0 := by omega
      subst h0
      simp [read_chunks_aux]
    | succ f2 =>
      simp only [read_chunks_aux]
      by_cases h0 : n = 0
      · rw [if_pos h0, if_pos h0]
      · rw [if_neg h0, if_neg h0, ih f2 (a + 16) (n - 16) (by omega) (by omega)]

/-- Unfolding one readback group. -/
theorem read_chunks_eq (a n : Nat) (h : n ≠ 0) :
    read_chunks a n = .readMem a (min n 16) :: read_chunks (a + 16) (n - 16) := by
  rw [read_chunks]
  cases hn : n with
  | zero => omega
  | succ m =>
    simp only [read_chunks_aux]
    rw [if_neg (by omega)]
    congr 1
    rw [read_chunks]
    exact read_chunks_aux_congr m (m + 1 - 16) (a + 16) (m + 1 - 16) (by omega) le_rfl

/-- The readback loop with every driver read succeeding issues exactly
the 16-byte readback groups. -/
theorem readback_aux_ok (nvm : Nvm) (addr n : Nat)
    (hr : ∀ a l, ∃ bs, nvm.read_mem a l = Except.ok bs) :
    ∀ fuel j, n - j ≤ fuel →
      readback_aux nvm addr n fuel j = (0, read_chunks (addr + j) (n - j)) := by
  intro fuel
  induction fuel with
  | zero =>
    intro j h
    have h0 : n - j = 0 := by omega
    rw [h0]
    simp [readback_aux, read_chunks, read_chunks_aux]
  | succ fuel ih =>
    intro j h
    simp only [readback_aux]
    by_cases hj : j < n
    · rw [if_pos hj]
      obtain ⟨bs, hbs⟩ := hr (addr + j) (min (n - j) 16)
      simp only [hbs]
      rw [ih (j + 16) (by omega)]
      rw [read_chunks_eq (addr + j) (n - j) (by omega)]
      have h1 : addr + j + 16 = addr + (j + 16) := by omega
      have h2 : n - j - 16 = n - (j + 16) := by omega
      rw [h1, h2]
    · rw [if_neg hj]
      have h0 : n - j = 0 := by omega
      rw [h0, read_chunks]
      simp [read_chunks_aux]

/-- The byte loop with a nonzero result consumes the remaining tokens
without touching the state. -/
theorem write_loop_err (nvm : Nvm) (addr : Nat) :
    ∀ toks i buf dirty j res calls, res ≠ 0 →
      write_loop nvm addr toks i buf dirty j res calls =
        (i + toks.length, buf, dirty, j, res, calls) := by
  intro toks
  induction toks with
  | nil =>
    intro i buf dirty j res calls _
    rw [write_loop]
    simp
  | cons tok rest ih =>
    intro i buf dirty j res calls h
    rw [write_loop, if_neg h, ih (i + 1) buf dirty j res calls h]
    have heq : i + 1 + rest.length = i + (tok :: rest).length := by simp; omega
    rw [heq]

/-- Decomposition of a snoc list as an append around a chosen cell. -/
theorem snoc_decomp {α : Type} (l : List α) (x : α) (pre : List α) (c : α) (post : List α)
    (h : l ++ [x] = pre ++ c :: post) :
    (post = [] ∧ pre = l ∧ c = x) ∨ (∃ post2, post = post2 ++ [x] ∧ l = pre ++ c :: post2) := by
  rcases List.eq_nil_or_concat post with hp | ⟨post2, y, hp⟩
  · subst hp
    obtain ⟨hl2, hx⟩ := List.append_inj' h rfl
    exact Or.inl ⟨rfl, hl2.symm, (List.cons.inj hx).1.symm⟩
  · subst hp
    right
    have hcc : pre ++ c :: (post2.concat y) = (pre ++ c :: post2) ++ [y] := by simp
    rw [hcc] at h
    obtain ⟨hl2, hx⟩ := List.append_inj' h rfl
    have hxy : x = y := (List.cons.inj hx).1
    exact ⟨post2, by simp [hxy], hl2⟩

/-- The byte-token loop under an always-succeeding write driver: starting
mid-stream with a partial window `win` (the first `m % 16` stream bytes of
the current window) and `rest` filling the 16-byte buffer, it buffers each
parsed byte and flushes exactly the full 16-byte windows of the remaining
stream, leaving the trailing partial window in the buffer. -/
theorem write_loop_ok (nvm : Nvm) (addr : Nat)
    (hw : ∀ a d, nvm.write_mem a d = 0) :
    ∀ (bts : List String) (m : Nat) (win rest : List Nat) (j : Nat) (calls : List NvmCall),
      win.length = m % 16 → win.length + rest.length = 16 →
      (m % 16 ≠ 0 → j = (m - 1) % 16) →
      ∃ rest2 j2,
        write_loop nvm addr bts (m + 1) (win ++ rest) (decide (m % 16 ≠ 0)) j 0 calls =
          (m + bts.length + 1,
            (win ++ bts.map (fun t => strtol t 16 % 256)).drop
              (win.length + bts.length - (m + bts.length) % 16) ++ rest2,
            decide ((m + bts.length) % 16 ≠ 0), j2, 0,
            calls ++ full_chunks (addr + (m - m % 16))
              (win ++ bts.map (fun t => strtol t 16 % 256))) ∧
        ((m + bts.length) % 16 ≠ 0 → j2 = (m + bts.length - 1) % 16) := by
  intro bts
  induction bts with
  | nil =>
    intro m win rest j calls hwin hlen hj
    refine ⟨rest, j, ?_, fun h => hj (by simpa using h)⟩
    rw [write_loop]
    have hfc : full_chunks (addr + (m - m % 16)) (win ++ List.map (fun t => strtol t 16 % 256) []) = [] := by
      rw [List.map_nil, List.append_nil]
      exact full_chunks_nil _ _ (by rw [hwin]; exact Nat.mod_lt _ (by norm_num))
    rw [hfc]
    simp [hwin]
  | cons tok rest_toks ih =>
    intro m win rest j calls hwin hlen hj
    have hm16 : m % 16 < 16 := Nat.mod_lt _ (by norm_num)
    obtain ⟨rh, rt, hrest⟩ : ∃ rh rt, rest = rh :: rt := by
      cases rest with
      | nil => exact absurd hlen (by simp [hwin]; omega)
      | cons rh rt => exact ⟨rh, rt, rfl⟩
    subst hrest
    rw [write_loop, if_pos rfl]
    simp only []
    have hjn : (m + 1 - 1) % 16 = m % 16 := by omega
    rw [hjn]
    have hset : (win ++ rh :: rt).set (m % 16) (strtol tok 16 % 256) =
        (win ++ [strtol tok 16 % 256]) ++ rt := by
      rw [List.set_append_right _ _ (le_of_eq hwin), hwin, Nat.sub_self]
      simp
    rw [hset]
    by_cases hfull : m % 16 + 1 = 16
    · rw [if_pos hfull]
      have hrt : rt = [] := by
        refine List.eq_nil_of_length_eq_zero ?_
        have h2 := hlen
        simp at h2
        omega
      subst hrt
      rw [hw]
      rw [if_neg (by norm_num : ¬ ((0 : Int) ≠ 0))]
      have h0 : (m + 1) % 16 = 0 := by omega
      have hdec : decide ((m + 1) % 16 ≠ 0) = false := by simp [h0]
      obtain ⟨rest2, j2, heq, hj2⟩ := ih (m + 1) [] ((win ++ [strtol tok 16 % 256]) ++ [])
        (m % 16)
        (calls ++ [NvmCall.writeMem (addr + (m + 1) - m % 16 - 1)
          ((win ++ [strtol tok 16 % 256]) ++ [])])
        (by simp [h0]) (by simp; omega) (by intro hh; exact absurd h0 hh)
      rw [List.nil_append, hdec] at heq
      refine ⟨rest2, j2, heq.trans ?_, ?_⟩
      · have hwl : win.length = 15 := by omega
        have hrle : (m + 1 + rest_toks.length) % 16 ≤ rest_toks.length := by omega
        have e1 : m + (tok :: rest_toks).length + 1 = m + 1 + rest_toks.length + 1 := by
          simp
          omega
        have hs2 : win ++ List.map (fun t => strtol t 16 % 256) (tok :: rest_toks) =
            (win ++ [strtol tok 16 % 256]) ++ List.map (fun t => strtol t 16 % 256) rest_toks := by
          simp
        have e2 : List.drop
            (win.length + (tok :: rest_toks).length - (m + (tok :: rest_toks).length) % 16)
            (win ++ List.map (fun t => strtol t 16 % 256) (tok :: rest_toks)) =
            List.drop (([] : List Nat).length + rest_toks.length -
                (m + 1 + rest_toks.length) % 16)
              (([] : List Nat) ++ List.map (fun t => strtol t 16 % 256) rest_toks) := by
          rw [hs2]
          have hamount : win.length + (tok :: rest_toks).length -
              (m + (tok :: rest_toks).length) % 16 =
              16 + (rest_toks.length - (m + 1 + rest_toks.length) % 16) := by
            simp
            omega
          rw [hamount, ← List.drop_drop,
            List.drop_left' (by simp [hwl] : (win ++ [strtol tok 16 % 256]).length = 16)]
          simp
        have e3 : m + (tok :: rest_toks).length = m + 1 + rest_toks.length := by
          simp
          omega
        have hfc2 : full_chunks (addr + (m - m % 16))
            (win ++ List.map (fun t => strtol t 16 % 256) (tok :: rest_toks)) =
            NvmCall.writeMem (addr + (m + 1) - m % 16 - 1)
              ((win ++ [strtol tok 16 % 256]) ++ []) ::
            full_chunks (addr + (m + 1 - (m + 1) % 16))
              (([] : List Nat) ++ List.map (fun t => strtol t 16 % 256) rest_toks) := by
          rw [hs2]
          rw [full_chunks_cons _ _ (by simp [hwl]; omega)]
          congr 1
          · congr 1
            · omega
            · rw [List.take_left' (by simp [hwl] : (win ++ [strtol tok 16 % 256]).length = 16)]
              simp
          · rw [List.drop_left' (by simp [hwl] : (win ++ [strtol tok 16 % 256]).length = 16)]
            congr 1
            omega
        have e4 : calls ++ full_chunks (addr + (m - m % 16))
            (win ++ List.map (fun t => strtol t 16 % 256) (tok :: rest_toks)) =
            calls ++ [NvmCall.writeMem (addr + (m + 1) - m % 16 - 1)
              ((win ++ [strtol tok 16 % 256]) ++ [])] ++
            full_chunks (addr + (m + 1 - (m + 1) % 16))
              (([] : List Nat) ++ List.map (fun t => strtol t 16 % 256) rest_toks) := by
          rw [hfc2]
          simp
        rw [e1, e2, e3, e4]
      · intro hh
        have hne : (m + 1 + rest_toks.length) % 16 ≠ 0 := by
          simp at hh
          omega
        have hj2e := hj2 hne
        simp
        omega
    · rw [if_neg hfull]
      have hne0 : (m + 1) % 16 ≠ 0 := by omega
      have hdec : decide ((m + 1) % 16 ≠ 0) = true := by simp [hne0]
      obtain ⟨rest2, j2, heq, hj2⟩ := ih (m + 1) (win ++ [strtol tok 16 % 256]) rt (m % 16)
        calls
        (by simp; omega)
        (by simp at hlen ⊢; omega)
        (by intro _; omega)
      rw [hdec] at heq
      refine ⟨rest2, j2, heq.trans ?_, ?_⟩
      · have e1 : m + (tok :: rest_toks).length + 1 = m + 1 + rest_toks.length + 1 := by
          simp
          omega
        have hs2 : win ++ List.map (fun t => strtol t 16 % 256) (tok :: rest_toks) =
            (win ++ [strtol tok 16 % 256]) ++ List.map (fun t => strtol t 16 % 256) rest_toks := by
          simp
        have e2 : List.drop
            (win.length + (tok :: rest_toks).length - (m + (tok :: rest_toks).length) % 16)
            (win ++ List.map (fun t => strtol t 16 % 256) (tok :: rest_toks)) =
            List.drop ((win ++ [strtol tok 16 % 256]).length + rest_toks.length -
              (m + 1 + rest_toks.length) % 16)
              ((win ++ [strtol tok 16 % 256]) ++
                List.map (fun t => strtol t 16 % 256) rest_toks) := by
          rw [hs2]
          congr 1
          simp
          omega
        have e3 : m + (tok :: rest_toks).length = m + 1 + rest_toks.length := by
          simp
          omega
        have e4 : full_chunks (addr + (m - m % 16))
            (win ++ List.map (fun t => strtol t 16 % 256) (tok :: rest_toks)) =
            full_chunks (addr + (m + 1 - (m + 1) % 16))
              ((win ++ [strtol tok 16 % 256]) ++
                List.map (fun t => strtol t 16 % 256) rest_toks) := by
          have hb : addr + (m - m % 16) = addr + (m + 1 - (m + 1) % 16) := by omega
          rw [hb, hs2]
        rw [e1, e2, e3, e4]
      · intro hh
        have hne : (m + 1 + rest_toks.length) % 16 ≠ 0 := by
          simp at hh
          omega
        have hj2e := hj2 hne
        simp
        omega

/-- The byte-token loop started with a zero result: every driver call it
issues before a failure succeeds, and a failing write (result -3) is the
last call it issues. -/
theorem write_loop_abort (nvm : Nvm) (addr : Nat) :
    ∀ toks i buf dirty j calls,
      ∃ i2 buf2 dirty2 j2 res2 post,
        write_loop nvm addr toks i buf dirty j 0 calls =
          (i2, buf2, dirty2, j2, res2, calls ++ post) ∧
        ((res2 = 0 ∧ ∀ c ∈ post, callFails nvm c = false) ∨
         (res2 = -3 ∧ ∃ pre cl, post = pre ++ [cl] ∧
            (∀ c ∈ pre, callFails nvm c = false) ∧ callFails nvm cl = true)) := by
  intro toks
  induction toks with
  | nil =>
    intro i buf dirty j calls
    exact ⟨i, buf, dirty, j, 0, [], by rw [write_loop]; simp, Or.inl ⟨rfl, by simp⟩⟩
  | cons tok rest ih =>
    intro i buf dirty j calls
    rw [write_loop, if_pos rfl]
    simp only []
    by_cases hfull : (i - 1) % 16 + 1 = 16
    · rw [if_pos hfull]
      by_cases hr : nvm.write_mem (addr + i - (i - 1) % 16 - 1)
          (buf.set ((i - 1) % 16) (strtol tok 16 % 256)) = 0
      · rw [if_neg (not_not_intro hr)]
        obtain ⟨i2, buf2, dirty2, j2, res2, post, heq, hdisj⟩ :=
          ih (i + 1) (buf.set ((i - 1) % 16) (strtol tok 16 % 256)) false ((i - 1) % 16)
            (calls ++ [NvmCall.writeMem (addr + i - (i - 1) % 16 - 1)
              (buf.set ((i - 1) % 16) (strtol tok 16 % 256))])
        have hok : callFails nvm (NvmCall.writeMem (addr + i - (i - 1) % 16 - 1)
            (buf.set ((i - 1) % 16) (strtol tok 16 % 256))) = false := by
          simp [callFails, hr]
        refine ⟨i2, buf2, dirty2, j2, res2,
          NvmCall.writeMem (addr + i - (i - 1) % 16 - 1)
            (buf.set ((i - 1) % 16) (strtol tok 16 % 256)) :: post, ?_, ?_⟩
        · rw [heq]
          simp
        · rcases hdisj with ⟨h0, hall⟩ | ⟨h3, pre, cl, hpost, hallp, hcl⟩
          · refine Or.inl ⟨h0, ?_⟩
            intro c hc
            rcases List.mem_cons.mp hc with h | h
            · rw [h]
              exact hok
            · exact hall c h
          · refine Or.inr ⟨h3, NvmCall.writeMem (addr + i - (i - 1) % 16 - 1)
              (buf.set ((i - 1) % 16) (strtol tok 16 % 256)) :: pre, cl,
              by rw [hpost]; simp, ?_, hcl⟩
            intro c hc
            rcases List.mem_cons.mp hc with h | h
            · rw [h]
              exact hok
            · exact hallp c h
      · rw [if_pos hr]
        rw [write_loop_err nvm addr rest (i + 1)
          (buf.set ((i - 1) % 16) (strtol tok 16 % 256)) false ((i - 1) % 16) (-3)
          (calls ++ [NvmCall.writeMem (addr + i - (i - 1) % 16 - 1)
            (buf.set ((i - 1) % 16) (strtol tok 16 % 256))]) (by norm_num)]
        refine ⟨i + 1 + rest.length, buf.set ((i - 1) % 16) (strtol tok 16 % 256), false,
          (i - 1) % 16, -3,
          [NvmCall.writeMem (addr + i - (i - 1) % 16 - 1)
            (buf.set ((i - 1) % 16) (strtol tok 16 % 256))], rfl,
          Or.inr ⟨rfl, [], NvmCall.writeMem (addr + i - (i - 1) % 16 - 1)
            (buf.set ((i - 1) % 16) (strtol tok 16 % 256)), by simp, by simp, ?_⟩⟩
        simp [callFails, hr]
    · rw [if_neg hfull]
      exact ih (i + 1) (buf.set ((i - 1) % 16) (strtol tok 16 % 256)) true ((i - 1) % 16) calls

/-- The readback loop: every read before a failure succeeds, and a failing
read (result -5) is the last call it issues. -/
theorem readback_abort (nvm : Nvm) (addr n : Nat) :
    ∀ fuel j, ∃ res post, readback_aux nvm addr n fuel j = (res, post) ∧
      ((res = 0 ∧ ∀ c ∈ post, callFails nvm c = false) ∨
       (res = -5 ∧ ∃ pre cl, post = pre ++ [cl] ∧
          (∀ c ∈ pre, callFails nvm c = false) ∧ callFails nvm cl = true)) := by
  intro fuel
  induction fuel with
  | zero =>
    intro j
    exact ⟨0, [], rfl, Or.inl ⟨rfl, by simp⟩⟩
  | succ fuel ih =>
    intro j
    rw [readback_aux]
    by_cases hj : j < n
    · rw [if_pos hj]
      cases hread : nvm.read_mem (addr + j) (min (n - j) 16) with
      | error e =>
        simp only [hread]
        refine ⟨-5, [NvmCall.readMem (addr + j) (min (n - j) 16)], rfl,
          Or.inr ⟨rfl, [], NvmCall.readMem (addr + j) (min (n - j) 16), by simp, by simp, ?_⟩⟩
        simp [callFails, hread]
      | ok bs =>
        simp only [hread]
        obtain ⟨res, post, heq, hdisj⟩ := ih (j + 16)
        rw [heq]
        have hok : callFails nvm (NvmCall.readMem (addr + j) (min (n - j) 16)) = false := by
          simp [callFails, hread]
        refine ⟨res, NvmCall.readMem (addr + j) (min (n - j) 16) :: post, rfl, ?_⟩
        rcases hdisj with ⟨h0, hall⟩ | ⟨h5, pre, cl, hpost, hallp, hcl⟩
        · refine Or.inl ⟨h0, ?_⟩
          intro c hc
          rcases List.mem_cons.mp hc with h | h
          · rw [h]
            exact hok
          · exact hall c h
        · refine Or.inr ⟨h5, NvmCall.readMem (addr + j) (min (n - j) 16) :: pre, cl,
            by rw [hpost]; simp, ?_, hcl⟩
          intro c hc
          rcases List.mem_cons.mp hc with h | h
          · rw [h]
            exact hok
          · exact hallp c h
    · rw [if_neg hj]
      exact ⟨0, [], rfl, Or.inl ⟨rfl, by simp⟩⟩

/-- updi_write on an address token and byte tokens, when every driver
write succeeds and every driver read succeeds: the exact transaction
trace is the full 16-byte windows, then the trailing partial window,
then the 16-byte readback groups. -/
theorem updi_write_ok (nvm : Nvm) (t0 : String) (bts : List String)
    (hw : ∀ a d, nvm.write_mem a d = 0)
    (hr : ∀ a l, ∃ bs, nvm.read_mem a l = Except.ok bs) :
    updi_write_tokens nvm (t0 :: bts) =
      (0, full_chunks (strtol t0 16) (bts.map fun t => strtol t 16 % 256) ++
        leftover_chunk (strtol t0 16) (bts.map fun t => strtol t 16 % 256) ++
        read_chunks (strtol t0 16) bts.length) := by
  rw [updi_write_tokens]
  simp only []
  obtain ⟨rest2, j2, heq, hj2⟩ := write_loop_ok nvm (strtol t0 16) hw bts 0 []
    (List.replicate 16 0) 0 [] (by simp) (by simp) (by intro h; exact absurd rfl h)
  simp only [Nat.zero_add, Nat.zero_mod, Nat.sub_zero, Nat.add_zero, List.nil_append,
    List.length_nil] at heq
  rw [(by decide : decide ((0 : Nat) ≠ 0) = false)] at heq
  have hrb : readback_loop nvm (strtol t0 16) (bts.length + 1 - 1) 0 =
      (0, read_chunks (strtol t0 16) bts.length) := by
    rw [readback_loop, readback_aux_ok nvm (strtol t0 16) (bts.length + 1 - 1) hr
      (bts.length + 1 - 1 - 0) 0 le_rfl]
    simp
  by_cases hL : bts.length % 16 = 0
  · rw [(by simp [hL] : decide (bts.length % 16 ≠ 0) = false)] at heq
    rw [heq]
    have hflush : write_flush nvm (strtol t0 16) (bts.length + 1,
        (List.map (fun t => strtol t 16 % 256) bts).drop
          (bts.length - bts.length % 16) ++ rest2, false, j2, (0 : Int),
        full_chunks (strtol t0 16) (List.map (fun t => strtol t 16 % 256) bts)) =
        (0, full_chunks (strtol t0 16) (List.map (fun t => strtol t 16 % 256) bts)) := by
      rw [write_flush, if_neg (by simp)]
    rw [hflush, if_pos rfl]
    have hlo : leftover_chunk (strtol t0 16) (List.map (fun t => strtol t 16 % 256) bts) =
        [] := by
      rw [leftover_chunk]
      simp only [List.length_map]
      rw [if_pos hL]
    rw [hrb, hlo]
    simp
  · have hj2e : j2 = (bts.length - 1) % 16 := by
      have := hj2 (by omega)
      omega
    rw [(by simp [hL] : decide (bts.length % 16 ≠ 0) = true)] at heq
    rw [heq]
    have hflush : write_flush nvm (strtol t0 16) (bts.length + 1,
        (List.map (fun t => strtol t 16 % 256) bts).drop
          (bts.length - bts.length % 16) ++ rest2, true, j2, (0 : Int),
        full_chunks (strtol t0 16) (List.map (fun t => strtol t 16 % 256) bts)) =
        (0, full_chunks (strtol t0 16) (List.map (fun t => strtol t 16 % 256) bts) ++
          [NvmCall.writeMem (strtol t0 16 + (bts.length - bts.length % 16))
            ((List.map (fun t => strtol t 16 % 256) bts).drop
              (bts.length - bts.length % 16))]) := by
      rw [write_flush, if_pos (by simp)]
      simp only []
      rw [hw]
      rw [if_neg (by norm_num : ¬ ((0 : Int) ≠ 0))]
      have haddr : strtol t0 16 + (bts.length + 1) - j2 - 2 =
          strtol t0 16 + (bts.length - bts.length % 16) := by
        rw [hj2e]
        omega
      have hdata : ((List.map (fun t => strtol t 16 % 256) bts).drop
          (bts.length - bts.length % 16) ++ rest2).take (j2 + 1) =
          (List.map (fun t => strtol t 16 % 256) bts).drop
            (bts.length - bts.length % 16) := by
        rw [List.take_left']
        rw [List.length_drop, List.length_map, hj2e]
        omega
      rw [haddr, hdata]
    rw [hflush, if_pos rfl]
    have hlo : leftover_chunk (strtol t0 16) (List.map (fun t => strtol t 16 % 256) bts) =
        [NvmCall.writeMem (strtol t0 16 + (bts.length - bts.length % 16))
          ((List.map (fun t => strtol t 16 % 256) bts).drop
            (bts.length - bts.length % 16))] := by
      rw [leftover_chunk]
      simp only [List.length_map]
      rw [if_neg hL]
    rw [hrb, hlo]

/-- updi_write on an address token and byte tokens, over any driver:
every call before a failure succeeds, a failing call is the last one
issued, and the result is then the matching driver I/O error (-3 failed
window write, -4 failed final partial write, -5 failed readback). -/
theorem updi_write_abort (nvm : Nvm) (t0 : String) (bts : List String) :
    ∃ res post, updi_write_tokens nvm (t0 :: bts) = (res, post) ∧
      ((res = 0 ∧ ∀ c ∈ post, callFails nvm c = false) ∨
       ((res = -3 ∨ res = -4 ∨ res = -5) ∧ ∃ pre cl, post = pre ++ [cl] ∧
          (∀ c ∈ pre, callFails nvm c = false) ∧ callFails nvm cl = true)) := by
  rw [updi_write_tokens]
  simp only []
  obtain ⟨i2, buf2, dirty2, j2, res2, post1, heq, hdisj⟩ :=
    write_loop_abort nvm (strtol t0 16) bts 1 (List.replicate 16 0) false 0 []
  rw [List.nil_append] at heq
  rw [heq]
  rcases hdisj with ⟨h0, hall1⟩ | ⟨h3, pre1, cl1, hpost1, hallp1, hcl1⟩
  · subst h0
    obtain ⟨res3, post3, heq3, hdisj3⟩ := readback_abort nvm (strtol t0 16) (i2 - 1)
      (i2 - 1 - 0) 0
    cases dirty2 with
    | false =>
      have hflush : write_flush nvm (strtol t0 16) (i2, buf2, false, j2, (0 : Int), post1) =
          (0, post1) := by
        rw [write_flush, if_neg (by simp)]
      rw [hflush, if_pos rfl, readback_loop, heq3]
      refine ⟨res3, post1 ++ post3, rfl, ?_⟩
      rcases hdisj3 with ⟨h0, hall3⟩ | ⟨h5, pre3, cl3, hpost3, hallp3, hcl3⟩
      · refine Or.inl ⟨h0, ?_⟩
        intro c hc
        rcases List.mem_append.mp hc with h | h
        · exact hall1 c h
        · exact hall3 c h
      · refine Or.inr ⟨Or.inr (Or.inr h5), post1 ++ pre3, cl3, by rw [hpost3]; simp, ?_, hcl3⟩
        intro c hc
        rcases List.mem_append.mp hc with h | h
        · exact hall1 c h
        · exact hallp3 c h
    | true =>
      by_cases hfw : nvm.write_mem (strtol t0 16 + i2 - j2 - 2) (buf2.take (j2 + 1)) = 0
      · have hflush : write_flush nvm (strtol t0 16) (i2, buf2, true, j2, (0 : Int), post1) =
            (0, post1 ++ [NvmCall.writeMem (strtol t0 16 + i2 - j2 - 2)
              (buf2.take (j2 + 1))]) := by
          rw [write_flush, if_pos (by simp)]
          simp only []
          rw [hfw, if_neg (by norm_num : ¬ ((0 : Int) ≠ 0))]
        have hfwok : callFails nvm (NvmCall.writeMem (strtol t0 16 + i2 - j2 - 2)
            (buf2.take (j2 + 1))) = false := by
          simp [callFails, hfw]
        rw [hflush, if_pos rfl, readback_loop, heq3]
        refine ⟨res3, (post1 ++ [NvmCall.writeMem (strtol t0 16 + i2 - j2 - 2)
          (buf2.take (j2 + 1))]) ++ post3, rfl, ?_⟩
        rcases hdisj3 with ⟨h0, hall3⟩ | ⟨h5, pre3, cl3, hpost3, hallp3, hcl3⟩
        · refine Or.inl ⟨h0, ?_⟩
          intro c hc
          rcases List.mem_append.mp hc with h | h
          · rcases List.mem_append.mp h with h2 | h2
            · exact hall1 c h2
            · rw [List.mem_singleton.mp h2]
              exact hfwok
          · exact hall3 c h
        · refine Or.inr ⟨Or.inr (Or.inr h5), (post1 ++ [NvmCall.writeMem
            (strtol t0 16 + i2 - j2 - 2) (buf2.take (j2 + 1))]) ++ pre3, cl3,
            by rw [hpost3]; simp, ?_, hcl3⟩
          intro c hc
          rcases List.mem_append.mp hc with h | h
          · rcases List.mem_append.mp h with h2 | h2
            · exact hall1 c h2
            · rw [List.mem_singleton.mp h2]
              exact hfwok
          · exact hallp3 c h
      · have hflush : write_flush nvm (strtol t0 16) (i2, buf2, true, j2, (0 : Int), post1) =
            (-4, post1 ++ [NvmCall.writeMem (strtol t0 16 + i2 - j2 - 2)
              (buf2.take (j2 + 1))]) := by
          rw [write_flush, if_pos (by simp)]
          simp only []
          rw [if_pos hfw]
        rw [hflush, if_neg (by norm_num)]
        refine ⟨-4, post1 ++ [NvmCall.writeMem (strtol t0 16 + i2 - j2 - 2)
          (buf2.take (j2 + 1))], rfl,
          Or.inr ⟨Or.inr (Or.inl rfl), post1, NvmCall.writeMem (strtol t0 16 + i2 - j2 - 2)
            (buf2.take (j2 + 1)), rfl, hall1, ?_⟩⟩
        simp [callFails, hfw]
  · subst h3
    have hflush : write_flush nvm (strtol t0 16) (i2, buf2, dirty2, j2, (-3 : Int), post1) =
        (-3, post1) := by
      rw [write_flush, if_neg (by simp)]
    rw [hflush, if_neg (by norm_num)]
    exact ⟨-3, post1, rfl, Or.inr ⟨Or.inl rfl, pre1, cl1, hpost1, hallp1, hcl1⟩⟩

/-- C3: for an address token followed by byte tokens, updi_write
accumulates bytes into a fixed 16-byte window, flushes each full window
as one driver write at the window start address, flushes the final
partial window after all tokens are consumed, and (only then, with every
write succeeded) reads the written range back in the same 16-byte
groupings with the last group sized to the remainder; over any driver,
a failing write or readback call is the last call issued and aborts with
the matching driver I/O error (-3, -4 or -5). -/
theorem C3_updi_write_window_flush_readback (nvm : Nvm) (t0 : String) (bts : List String)
    (hw : ∀ a d, nvm.write_mem a d = 0)
    (hr : ∀ a l, ∃ bs, nvm.read_mem a l = Except.ok bs) :
    updi_write_tokens nvm (t0 :: bts) =
      (0, full_chunks (strtol t0 16) (bts.map fun t => strtol t 16 % 256) ++
        leftover_chunk (strtol t0 16) (bts.map fun t => strtol t 16 % 256) ++
        read_chunks (strtol t0 16) bts.length) ∧
    ∀ (nvm2 : Nvm) (pre : List NvmCall) (c : NvmCall) (post : List NvmCall),
      (updi_write_tokens nvm2 (t0 :: bts)).2 = pre ++ c :: post →
      callFails nvm2 c = true →
      post = [] ∧ ((updi_write_tokens nvm2 (t0 :: bts)).1 = -3 ∨
        (updi_write_tokens nvm2 (t0 :: bts)).1 = -4 ∨
        (updi_write_tokens nvm2 (t0 :: bts)).1 = -5) := by
  refine ⟨updi_write_ok nvm t0 bts hw hr, ?_⟩
  intro nvm2 pre c post htr hfail
  obtain ⟨res, tr, heq, hdisj⟩ := updi_write_abort nvm2 t0 bts
  rw [heq] at htr ⊢
  have htr2 : tr = pre ++ c :: post := htr
  rcases hdisj with ⟨h0, hall⟩ | ⟨hcodes, pre1, cl1, hpost1, hallp1, hcl1⟩
  · have hc : c ∈ tr := by
      rw [htr2]
      simp
    have := hall c hc
    rw [hfail] at this
    exact absurd this (by simp)
  · rw [hpost1] at htr2
    rcases snoc_decomp pre1 cl1 pre c post htr2 with ⟨hp, _, hc⟩ | ⟨post2, _, hpre1⟩
    · exact ⟨hp, hcodes⟩
    · have hc : c ∈ pre1 := by
        rw [hpre1]
        simp
      have := hallp1 c hc
      rw [hfail] at this
      exact absurd this (by simp)

/-- Witness for C3: the 17-byte direct write at hex address 2000 issues
exactly two writes (16 bytes at 0x2000, 1 byte at 0x2010) and two
readback reads, with all driver calls succeeding. -/
theorem C3_updi_write_window_flush_readback_witness :
    updi_write_tokens nvmOk
      ("2000" :: ["1","2","3","4","5","6","7","8","9","a","b","c","d","e","f","10","11"]) =
      (0, [NvmCall.writeMem 8192 [1,2,3,4,5,6,7,8,9,10,11,12,13,14,15,16],
           NvmCall.writeMem 8208 [17],
           NvmCall.readMem 8192 16, NvmCall.readMem 8208 1]) :=
  ((C3_updi_write_window_flush_readback nvmOk "2000"
      ["1","2","3","4","5","6","7","8","9","a","b","c","d","e","f","10","11"]
      (fun _ _ => rfl) (fun _ l => ⟨List.replicate l 255, rfl⟩)).1).trans (by decide)

end Cupdi